import Mathlib

/-!
Verification of the Terraria-Server admin panel's live-log ingestion core and
.tmod archive dependency parser, as a shallow embedding of the Python source
(`terraria_admin/extensions.py`, `terraria_admin/blueprints/console.py`,
`terraria_admin/services/console.py`, `terraria_admin/services/mods.py`).

Modelling conventions:
* Python text is modelled as `List Char`; byte strings as `List Nat`
  (each element one byte value).
* Machine integers are `Nat`/`Int` (Python ints are unbounded, so no overflow
  modelling is needed).
* Python code that can raise is modelled with `Except`; the catch-all
  `try/except` wrappers become total functions matching on the `Except`.
* Loops whose bound is not structural are written with an explicit fuel
  argument that callers instantiate with `length + 1`; running out of fuel is
  a distinguished error (`PErr.fuel`) which is proved unreachable for the
  canonical fuel, so the fueled functions agree with the unbounded Python
  loops.
* The two background poller threads serialise all buffer mutations under
  `console_lock`; the interleaving of appends is therefore modelled as a
  sequential list of appends.
-/

namespace TerrariaAdmin

/-! ### Console ring buffer (`extensions.py`)

`console_buffer = deque(maxlen=MAX_CONSOLE_LINES)` together with the
monotonically increasing counter `console_seq`.  Each buffered line is
stamped with the value `console_seq` had when it was appended, which is the
implicit sequence number used by the cursor API. -/

def MAX_CONSOLE_LINES : Nat := 500

structure ConsoleState where
  buf : List (Nat × List Char)
  seq : Nat
  deriving DecidableEq

def initialConsole : ConsoleState := { buf := [], seq := 0 }

/-- One append under `console_lock`:
`console_buffer.append(line); extensions.console_seq += 1`.
The deque with `maxlen = cap` keeps only the `cap` most recent entries,
evicting from the front. -/
def appendLine (cap : Nat) (st : ConsoleState) (line : List Char) : ConsoleState :=
  let b := st.buf ++ [(st.seq, line)]
  { buf := b.drop (b.length - cap), seq := st.seq + 1 }

/-- The state reached from the empty buffer after appending `ls` in order.
Every reachable buffer state is of this form. -/
def appendAll (cap : Nat) (ls : List (List Char)) : ConsoleState :=
  ls.foldl (appendLine cap) initialConsole

/-- `api_console_lines` (`blueprints/console.py`): snapshot the buffer and
counter under the lock, compute `buf_start = seq - len(buf)`, clamp the
caller-supplied cursor with `max(buf_start, min(since, seq))` and return
`buf[offset:]` plus the running total. -/
def linesSince (st : ConsoleState) (since : Int) : List (List Char) × Nat :=
  let buf := st.buf.map Prod.snd
  let bufStart : Int := (st.seq : Int) - (buf.length : Int)
  let clamped : Int := max bufStart (min since (st.seq : Int))
  let offset : Int := clamped - bufStart
  (buf.drop offset.toNat, st.seq)

/-- Reference stamping function: `stampFrom n [a, b, c] = [(n,a), (n+1,b), (n+2,c)]`.
Used to state what the buffer of a reachable state looks like. -/
def stampFrom (n : Nat) : List (List Char) → List (Nat × List Char)
  | [] => []
  | a :: as => (n, a) :: stampFrom (n + 1) as

/-- Ten distinct lines, used for the capacity-3 / 10-append examples. -/
def tenLines : List (List Char) :=
  [['0'], ['1'], ['2'], ['3'], ['4'], ['5'], ['6'], ['7'], ['8'], ['9']]

/-! ### Line normalisation (`services/console.py`)

`ANSI_ESCAPE`: an `\x1B` followed by either one character in the class
`@`..`Z`, `\`..`_`, or by `[`, then zero or more parameter bytes, zero or
more intermediate bytes and one final byte.  Below, the chunk-processing
loop of the Docker log poller `_docker_run`. -/

/-- Characters stripped by Python's `str.strip()` (ASCII part: `\t\n\v\f\r`,
space, and the file separators `\x1c`-`\x1f`).  The multi-byte Unicode
whitespace code points are outside the ASCII log data this system handles and
are not modelled. -/
def isPySpace (c : Char) : Bool :=
  (9 ≤ c.toNat && c.toNat ≤ 13) || c = ' ' || (28 ≤ c.toNat && c.toNat ≤ 31)

def pyRStrip (l : List Char) : List Char :=
  (l.reverse.dropWhile isPySpace).reverse

def pyLStrip (l : List Char) : List Char :=
  l.dropWhile isPySpace

/-- Python `str.strip()` (strip both ends; the two passes commute, the
left-then-right order here is immaterial). -/
def pyStrip (l : List Char) : List Char :=
  pyLStrip (pyRStrip l)

/-- A line with no leading and no trailing whitespace (the shape `strip()`
guarantees). -/
def noEdgeSpace (l : List Char) : Prop :=
  (∀ c, l.head? = some c → isPySpace c = false) ∧
  (∀ c, l.getLast? = some c → isPySpace c = false)

/-- First alternative of `ANSI_ESCAPE`: the character class `[@-Z\\-_]`,
i.e. `0x40`-`0x5A` or `0x5C`-`0x5F`. -/
def isSimpleFinal (c : Char) : Bool :=
  (64 ≤ c.toNat && c.toNat ≤ 90) || (92 ≤ c.toNat && c.toNat ≤ 95)

/-- CSI parameter bytes `[0-?]` = `0x30`-`0x3F`. -/
def isCsiParam (c : Char) : Bool :=
  48 ≤ c.toNat && c.toNat ≤ 63

/-- CSI intermediate bytes: space through `/`, i.e. `0x20`-`0x2F`. -/
def isCsiInter (c : Char) : Bool :=
  32 ≤ c.toNat && c.toNat ≤ 47

/-- CSI final byte `[@-~]` = `0x40`-`0x7E`. -/
def isCsiFinal (c : Char) : Bool :=
  64 ≤ c.toNat && c.toNat ≤ 126

/-- `ANSI_ESCAPE.sub('', ·)`: delete every match of the escape-sequence
regex; on a failed match at an `\x1b` the scan resumes at the next
character, so the unmatched `\x1b` is kept.  Fueled; one unit of fuel is
spent per scan position, so `length + 1` fuel (the wrapper below) always
suffices. -/
def stripAnsiGo : Nat → List Char → Option (List Char)
  | 0, _ => none
  | _ + 1, [] => some []
  | f + 1, c :: rest =>
    if c = '\x1b' then
      match rest with
      | [] => some [c]
      | d :: rest2 =>
        if isSimpleFinal d then
          stripAnsiGo f rest2
        else if d = '[' then
          let r1 := rest2.dropWhile isCsiParam
          let r2 := r1.dropWhile isCsiInter
          match r2 with
          | e :: rest3 =>
            if isCsiFinal e then stripAnsiGo f rest3
            else (stripAnsiGo f rest).map (fun r => c :: r)
          | [] => (stripAnsiGo f rest).map (fun r => c :: r)
        else (stripAnsiGo f rest).map (fun r => c :: r)
    else (stripAnsiGo f rest).map (fun r => c :: r)

def stripAnsi (l : List Char) : List Char :=
  (stripAnsiGo (l.length + 1) l).getD l

/-- The `while '\n' in pending:` loop of `_docker_run`: repeatedly split off
the text before the first `'\n'`.  Returns the complete (newline-terminated)
raw lines and the leftover pending text.  Fueled; each iteration removes at
least one character, so `length + 1` fuel always suffices. -/
def drainLinesGo : Nat → List Char → Option (List (List Char) × List Char)
  | 0, _ => none
  | f + 1, pending =>
    if pending.contains '\n' then
      let raw := pending.takeWhile (fun c => c ≠ '\n')
      let rest := (pending.dropWhile (fun c => c ≠ '\n')).tail
      match drainLinesGo f rest with
      | none => none
      | some (ls, rem) => some (raw :: ls, rem)
    else some ([], pending)

def drainLines (pending : List Char) : List (List Char) × List Char :=
  (drainLinesGo (pending.length + 1) pending).getD ([], pending)

/-- `raw_line.rsplit('\r', 1)[-1]`: the text after the last carriage
return (the whole string when there is none). -/
def afterLastCR (l : List Char) : List Char :=
  (l.reverse.takeWhile (fun c => c ≠ '\r')).reverse

/-- Per-line processing in `_docker_run`: apply `\r` overwrite semantics,
then `strip()`. -/
def processRawLine (raw : List Char) : List Char :=
  let r := if raw.contains '\r' then afterLastCR raw else raw
  pyStrip r

/-- One iteration of the Docker poller's chunk loop (`_docker_run`):
append the ANSI-stripped chunk to `pending`, flush every complete
`\n`-terminated line (collapsing `\r`, stripping, and skipping blanks), and
finally discard overwritten partial-line data (`\r` without `\n`).
Returns the lines appended to the console buffer, in order, and the new
`pending`. -/
def dockerProcessChunk (pending chunk : List Char) : List (List Char) × List Char :=
  let p := pending ++ stripAnsi chunk
  let dl := drainLines p
  let emitted := (dl.1.map processRawLine).filter (fun l => !l.isEmpty)
  let rem := dl.2
  (emitted, if rem.contains '\r' then afterLastCR rem else rem)

/-! ### File-tail poller (`_file_run` in `services/console.py`) -/

/-- `_file_run` opens the log with `open(log_file, 'r', errors='replace')`
— text mode with `newline=None`, i.e. universal newlines: the decoder
translates `'\r\n'` and lone `'\r'` to `'\n'` before `readline` ever sees
the text (CPython's `IncrementalNewlineDecoder`).  A `'\r'` therefore
never appears in a returned line. -/
def translateNewlines : List Char → List Char
  | [] => []
  | '\r' :: '\n' :: rest => '\n' :: translateNewlines rest
  | '\r' :: rest => '\n' :: translateNewlines rest
  | c :: rest => c :: translateNewlines rest

/-- `f.readline()` iterated to EOF over already newline-translated text:
splits on `'\n'`, each line kept with its terminating `'\n'`; a final
unterminated fragment is also returned (Python's `readline` at EOF yields
the partial line). -/
def readLinesGo (cur : List Char) : List Char → List (List Char)
  | [] => if cur.isEmpty then [] else [cur.reverse]
  | c :: rest =>
    if c = '\n' then (cur.reverse ++ ['\n']) :: readLinesGo [] rest
    else readLinesGo (c :: cur) rest

/-- The sequence of lines `f.readline()` yields for a file whose raw text
is `content`: universal-newline translation, then `'\n'` splitting. -/
def readLines (content : List Char) : List (List Char) :=
  readLinesGo [] (translateNewlines content)

/-- Per-line processing in `_file_run`:
`line = ANSI_ESCAPE.sub('', raw).strip(); if not line: continue`.
Returns `none` when the line is skipped. -/
def fileProcessLine (raw : List Char) : Option (List Char) :=
  let line := pyStrip (stripAnsi raw)
  if line.isEmpty then none else some line

/-- One polling cycle of `_file_run` against a file whose current text is
`content`, with stored offset `lastPos`.  File-system model: POSIX regular
files, where seeking a read handle beyond end-of-file succeeds (reads then
return empty) — so `seekOk` is `true` for an ordinary open file regardless
of how `content` compares to `lastPos`, and `false` only when `f.seek`
raises `OSError` (then the code does `f.seek(0)`).  Returns the lines
appended to the buffer and the new `last_pos = f.tell()`. -/
def fileTailCycle (content : List Char) (lastPos : Nat) (seekOk : Bool) :
    List (List Char) × Nat :=
  let startPos := if seekOk then lastPos else 0
  let emitted := (readLines (content.drop startPos)).filterMap fileProcessLine
  (emitted, if seekOk then max lastPos content.length else content.length)

/-! ### Player-event detection (`check_player_event` / `_extract_player_name`) -/

inductive PEvent where
  | join (name : List Char)
  | leave (name : List Char)
  deriving DecidableEq

def joinKey : List Char := "has joined".toList
def leftKey : List Char := "has left".toList
def discKey : List Char := "has disconnected".toList
def someoneName : List Char := "Someone".toList

/-- `line.lower()` (ASCII case folding; Python's Unicode-specific foldings
do not occur in the keywords involved). -/
def toLowerL (l : List Char) : List Char := l.map Char.toLower

/-- `line.split(keyword)[0]`: the text before the first occurrence of
`keyword` (the whole string when `keyword` does not occur). -/
def beforeFirstInfix (key : List Char) : List Char → List Char
  | [] => []
  | c :: rest =>
    if key.isPrefixOf (c :: rest) then []
    else c :: beforeFirstInfix key rest

/-- Python `str.split()` with no argument: split on whitespace runs,
producing no empty items. -/
def wordsGo (cur : List Char) : List Char → List (List Char)
  | [] => if cur.isEmpty then [] else [cur.reverse]
  | c :: rest =>
    if isPySpace c then
      if cur.isEmpty then wordsGo [] rest
      else cur.reverse :: wordsGo [] rest
    else wordsGo (c :: cur) rest

def pyWords (l : List Char) : List (List Char) :=
  wordsGo [] l

/-- `_extract_player_name`:
`parts = line.split(keyword)[0].strip().split(); parts[-1] if parts else 'Someone'`. -/
def extractPlayerName (line key : List Char) : List Char :=
  let parts := pyWords (pyStrip (beforeFirstInfix key line))
  parts.getLastD someoneName

/-- `check_player_event`: case-insensitive substring detection of
join/leave phrases; the notification side effect is modelled by the
returned event (`None` = no notification fired). -/
def checkPlayerEvent (line : List Char) : Option PEvent :=
  let lower := toLowerL line
  if joinKey <:+: lower then
    some (.join (extractPlayerName line joinKey))
  else if leftKey <:+: lower ∨ discKey <:+: lower then
    let key := if leftKey <:+: lower then leftKey else discKey
    some (.leave (extractPlayerName line key))
  else none

/-! ### `.tmod` archive parser (`services/mods.py`)

Byte strings are `List Nat` (one element per byte).  The decoded text of a
7-bit-length-prefixed string is kept as its byte list: every tag compared
against is plain ASCII, and UTF-8 decoding (with replacement) is injective
on ASCII, so byte-list comparison agrees with Python's decoded-string
comparison.  `zlib.decompress(..., wbits=-15)` is an external library call
and is modelled as an uninterpreted function parameter `inflate` that may
fail. -/

/-- Parser errors: `oob` models a Python `IndexError` (or any structural
read failure), `ext` an external (zlib) failure, and `fuel` is the
fuel-exhaustion sentinel of the fueled loops, unreachable at the canonical
fuel. -/
inductive PErr where
  | oob
  | ext
  | fuel
  deriving DecidableEq

deriving instance DecidableEq for Except

def asciiL (s : String) : List Nat := s.toList.map Char.toNat

/-- The varint loop of `_read_7bit_string`: reads bytes while the high bit
is set, accumulating 7 bits per byte (least-significant group first).
Returns the decoded length and the number of bytes consumed; reading past
the end of the buffer is an `IndexError` in Python (`data[pos]`). -/
def read7BitVarint : List Nat → Except PErr (Nat × Nat)
  | [] => .error .oob
  | b :: rest =>
    if b &&& 128 = 0 then .ok (b &&& 127, 1)
    else
      match read7BitVarint rest with
      | .error e => .error e
      | .ok (v, k) => .ok ((b &&& 127) + v * 128, k + 1)

/-- `_read_7bit_string(data, pos)`: varint length then that many bytes
(`data[pos:pos+length]` is a Python slice and silently truncates). -/
def read7BitString (data : List Nat) (pos : Nat) : Except PErr (List Nat × Nat) :=
  match read7BitVarint (data.drop pos) with
  | .error e => .error e
  | .ok (len, k) => .ok ((data.drop (pos + k)).take len, pos + k + len)

/-- `_read_dotnet_string_list`: strings until an empty string.  Fueled;
every iteration advances `pos`, so `length + 1` fuel suffices (proved
below). -/
def readDotnetStringList : Nat → List Nat → Nat → Except PErr (List (List Nat) × Nat)
  | 0, _, _ => .error .fuel
  | f + 1, data, pos =>
    match read7BitString data pos with
    | .error e => .error e
    | .ok (s, pos1) =>
      if s.isEmpty then .ok ([], pos1)
      else
        match readDotnetStringList f data pos1 with
        | .error e => .error e
        | .ok (items, p) => .ok (s :: items, p)

def isStringValueTag (t : List Nat) : Bool :=
  t == asciiL "author" || t == asciiL "version" || t == asciiL "displayName" ||
  t == asciiL "homepage" || t == asciiL "description" || t == asciiL "eacPath" ||
  t == asciiL "buildVersion" || t == asciiL "modSource"

def isListValueTag (t : List Nat) : Bool :=
  t == asciiL "modReferences" || t == asciiL "weakReferences" ||
  t == asciiL "sortAfter" || t == asciiL "sortBefore" || t == asciiL "dllReferences"

/-- `r.split('@')[0]`: drop a `@version` suffix (`'@'` is byte `64`). -/
def stripVersionSuffix (r : List Nat) : List Nat :=
  r.takeWhile (fun b => b ≠ 64)

/-- The field loop of `_parse_info_binary`.  `modRefs`/`weakRefs` are the
loop-carried values (re-assigned, not appended, when the tag repeats).
Fueled; every iteration with a non-empty tag advances `pos`. -/
def parseInfoLoop :
    Nat → List Nat → Nat → List (List Nat) → List (List Nat) →
    Except PErr (List (List Nat) × List (List Nat))
  | 0, _, _, _, _ => .error .fuel
  | f + 1, data, pos, modRefs, weakRefs =>
    if pos < data.length then
      match read7BitString data pos with
      | .error e => .error e
      | .ok (tag, pos1) =>
        if tag.isEmpty then .ok (modRefs, weakRefs)
        else if tag == asciiL "modReferences" then
          match readDotnetStringList (data.length + 1) data pos1 with
          | .error e => .error e
          | .ok (refs, pos2) =>
            parseInfoLoop f data pos2 (refs.map stripVersionSuffix) weakRefs
        else if tag == asciiL "weakReferences" then
          match readDotnetStringList (data.length + 1) data pos1 with
          | .error e => .error e
          | .ok (refs, pos2) =>
            parseInfoLoop f data pos2 modRefs (refs.map stripVersionSuffix)
        else if isListValueTag tag then
          match readDotnetStringList (data.length + 1) data pos1 with
          | .error e => .error e
          | .ok (_, pos2) => parseInfoLoop f data pos2 modRefs weakRefs
        else if isStringValueTag tag then
          match read7BitString data pos1 with
          | .error e => .error e
          | .ok (_, pos2) => parseInfoLoop f data pos2 modRefs weakRefs
        else if tag == asciiL "side" then
          parseInfoLoop f data (pos1 + 1) modRefs weakRefs
        else
          parseInfoLoop f data pos1 modRefs weakRefs
    else .ok (modRefs, weakRefs)

/-- `_parse_info_binary(data)`: returns `(mod_refs, weak_refs)`. -/
def parseInfoBinary (data : List Nat) :
    Except PErr (List (List Nat) × List (List Nat)) :=
  parseInfoLoop (data.length + 1) data 0 [] []

/-- One row of the file table: `(name, running_offset, u_len, c_len)`. -/
structure TmodEntry where
  name : List Nat
  off : Nat
  ulen : Nat
  clen : Nat
  deriving DecidableEq

/-- `int.from_bytes(bs, 'little')` (an empty or short slice just yields a
smaller value, never an error). -/
def leNat (bs : List Nat) : Nat :=
  bs.foldr (fun b acc => b + 256 * acc) 0

def readInt32 (raw : List Nat) (pos : Nat) : Nat :=
  leNat ((raw.drop pos).take 4)

/-- The entry loop of `_parse_tmod_file_table`: `file_count` rows of
name / `u_len` / `c_len`, accumulating the implicit cumulative offset. -/
def readFileEntries (raw : List Nat) :
    Nat → Nat → Nat → Except PErr (List TmodEntry × Nat)
  | 0, pos, _ => .ok ([], pos)
  | n + 1, pos, runOff =>
    match read7BitString raw pos with
    | .error e => .error e
    | .ok (name, p1) =>
      let u := readInt32 raw p1
      let c := readInt32 raw (p1 + 4)
      match readFileEntries raw n (p1 + 8) (runOff + c) with
      | .error e => .error e
      | .ok (es, p) =>
        .ok ({ name := name, off := runOff, ulen := u, clen := c } :: es, p)

/-- `_parse_tmod_file_table(raw, pos)`: mod name, discarded version,
4-byte little-endian `file_count`, then the entry rows; returns
`(mod_name, entries, file_data_start)`. -/
def parseTmodFileTable (raw : List Nat) (pos : Nat) :
    Except PErr (List Nat × List TmodEntry × Nat) :=
  match read7BitString raw pos with
  | .error e => .error e
  | .ok (modName, p1) =>
    match read7BitString raw p1 with
    | .error e => .error e
    | .ok (_, p2) =>
      let fileCount := readInt32 raw p2
      match readFileEntries raw fileCount (p2 + 4) 0 with
      | .error e => .error e
      | .ok (entries, p) => .ok (modName, entries, p)

/-! #### `build.txt` fallback scanning

Python decodes the entry with `errors='replace'` and uses `str.splitlines`
and `str.strip`; modelled here at the byte level with the ASCII line
terminators and whitespace (the multi-byte Unicode terminators NEL, LS, PS
do not occur in ASCII `build.txt` files and are not modelled). -/

def isPySpaceB (b : Nat) : Bool :=
  (9 ≤ b && b ≤ 13) || b = 32 || (28 ≤ b && b ≤ 31)

def stripB (l : List Nat) : List Nat :=
  ((l.dropWhile isPySpaceB).reverse.dropWhile isPySpaceB).reverse

def isLineBreakB (b : Nat) : Bool :=
  b = 10 || b = 11 || b = 12 || b = 28 || b = 29 || b = 30

/-- `str.splitlines` (ASCII terminators, `\r\n` counted once, no trailing
empty line for a trailing terminator). -/
def splitlinesBGo (cur : List Nat) : List Nat → List (List Nat)
  | [] => if cur.isEmpty then [] else [cur.reverse]
  | 13 :: 10 :: rest => cur.reverse :: splitlinesBGo [] rest
  | 13 :: rest => cur.reverse :: splitlinesBGo [] rest
  | b :: rest =>
    if isLineBreakB b then cur.reverse :: splitlinesBGo [] rest
    else splitlinesBGo (b :: cur) rest

def splitlinesB (content : List Nat) : List (List Nat) :=
  splitlinesBGo [] content

/-- `line.split('=', 1)[1]` under the guard `'=' in line`. -/
def afterFirstEq (l : List Nat) : List Nat :=
  (l.dropWhile (fun b => b ≠ 61)).tail

/-- `.split(',')` (byte `44`). -/
def splitCommasGo (cur : List Nat) : List Nat → List (List Nat)
  | [] => [cur.reverse]
  | b :: rest =>
    if b = 44 then cur.reverse :: splitCommasGo [] rest
    else splitCommasGo (b :: cur) rest

def splitCommas (l : List Nat) : List (List Nat) :=
  splitCommasGo [] l

/-- The `build.txt` scan in `parse_tmod_dependencies`: first stripped line
that starts with `modReferences` and contains `'='`; parse the remainder as
a comma-separated list, trimming items and dropping empties.  `[]` when no
line matches. -/
def parseBuildTxt (content : List Nat) : List (List Nat) :=
  match ((splitlinesB content).map stripB).find?
      (fun line => (asciiL "modReferences").isPrefixOf line && line.contains 61) with
  | some line =>
    ((splitCommas (afterFirstEq line)).map stripB).filter (fun d => !d.isEmpty)
  | none => []

/-- The body of `parse_tmod_dependencies` inside its `try:` — every
structural failure surfaces as `.error`. -/
def parseTmodDependenciesAux (inflate : List Nat → Except PErr (List Nat))
    (raw : List Nat) : Except PErr (List (List Nat)) :=
  if raw.take 4 == asciiL "TMOD" then
    match read7BitString raw 4 with
    | .error e => .error e
    | .ok (_, p0) =>
      let pos := p0 + 20 + 256 + 4
      match parseTmodFileTable raw pos with
      | .error e => .error e
      | .ok (_, entries, fileDataStart) =>
        match entries.find? (fun en => en.name == asciiL "Info") with
        | some en =>
          let fileBytes := (raw.drop (fileDataStart + en.off)).take en.clen
          if en.ulen ≠ en.clen then
            match inflate fileBytes with
            | .error e => .error e
            | .ok fb =>
              match parseInfoBinary fb with
              | .error e => .error e
              | .ok (modRefs, _) => .ok modRefs
          else
            match parseInfoBinary fileBytes with
            | .error e => .error e
            | .ok (modRefs, _) => .ok modRefs
        | none =>
          match entries.find? (fun en => en.name == asciiL "build.txt") with
          | some en =>
            let fileBytes := (raw.drop (fileDataStart + en.off)).take en.clen
            if en.ulen ≠ en.clen then
              match inflate fileBytes with
              | .error e => .error e
              | .ok fb => .ok (parseBuildTxt fb)
            else .ok (parseBuildTxt fileBytes)
          | none => .ok []
  else .ok []

/-- `parse_tmod_dependencies`: the `try/except Exception: pass; return []`
boundary — any raised error degrades to the empty list. -/
def parseTmodDependencies (inflate : List Nat → Except PErr (List Nat))
    (raw : List Nat) : List (List Nat) :=
  match parseTmodDependenciesAux inflate raw with
  | .ok refs => refs
  | .error _ => []

/-! #### Encoders and concrete fixtures for the archive claims -/

/-- Producer-side encoding of a 7-bit-length-prefixed string whose length
fits one varint byte. -/
def encode7 (s : List Nat) : List Nat := s.length :: s

/-- Producer-side encoding of a .NET string list: the strings then an empty
string as terminator. -/
def encodeStrList (rs : List (List Nat)) : List Nat :=
  (rs.map encode7).flatten ++ [0]

/-- A binary `Info` blob holding exactly one `modReferences` field. -/
def encodeModRefsField (rs : List (List Nat)) : List Nat :=
  encode7 (asciiL "modReferences") ++ encodeStrList rs

/-- An `inflate` oracle that always fails (all stored-entry fixtures below
have `u_len = c_len`, so it is never consulted on the happy path). -/
def inflateFail : List Nat → Except PErr (List Nat) := fun _ => .error .ext

/-- File table with three entries of compressed lengths 10, 20, 5
(names `a`, `b`, `c`; stored, `u_len = c_len`). -/
def tbl3 : List Nat :=
  [0, 0, 3, 0, 0, 0,
   1, 97, 10, 0, 0, 0, 10, 0, 0, 0,
   1, 98, 20, 0, 0, 0, 20, 0, 0, 0,
   1, 99, 5, 0, 0, 0, 5, 0, 0, 0]

/-- `Info` blob fixture: hard dependency `Foo@1.2.3`. -/
def infoFooBytes : List Nat := encodeModRefsField [asciiL "Foo@1.2.3"]

/-- A minimal well-formed archive: magic, empty version string, zeroed
hash/signature/datalen fields, a one-entry table whose stored `Info` entry
is `infoFooBytes`. -/
def archFoo : List Nat :=
  asciiL "TMOD" ++ [0] ++ List.replicate 280 0 ++
  [0, 0] ++ [1, 0, 0, 0] ++
  encode7 (asciiL "Info") ++ [25, 0, 0, 0] ++ [25, 0, 0, 0] ++
  infoFooBytes

/-- `joinNl [s1, s2] = s1 ++ "\n" ++ s2 ++ "\n"`: a chunk consisting of the
given complete newline-terminated lines.  Used to state the normalisation
identity claims. -/
def joinNl (segs : List (List Char)) : List Char :=
  (segs.map (fun s => s ++ ['\n'])).flatten

/-- The clamped cursor `max(buf_start, min(since, seq))` computed by
`api_console_lines`, as a value of its own for stating the cursor claims. -/
def clampedCursor (st : ConsoleState) (since : Int) : Int :=
  max ((st.seq : Int) - (st.buf.length : Int)) (min since (st.seq : Int))

/-! ## Helper lemmas -/

theorem stampFrom_append (n : Nat) (ls : List (List Char)) (a : List Char) :
    stampFrom n (ls ++ [a]) = stampFrom n ls ++ [(n + ls.length, a)] := by
  induction ls generalizing n with
  | nil => simp [stampFrom]
  | cons x xs ih =>
    have harith : n + 1 + xs.length = n + (x :: xs).length := by
      simp only [List.length_cons]
      omega
    calc stampFrom n ((x :: xs) ++ [a])
        = (n, x) :: stampFrom (n + 1) (xs ++ [a]) := rfl
      _ = (n, x) :: (stampFrom (n + 1) xs ++ [(n + 1 + xs.length, a)]) := by rw [ih]
      _ = stampFrom n (x :: xs) ++ [(n + (x :: xs).length, a)] := by rw [harith]; rfl

theorem length_stampFrom (n : Nat) (ls : List (List Char)) :
    (stampFrom n ls).length = ls.length := by
  induction ls generalizing n with
  | nil => rfl
  | cons x xs ih => simp [stampFrom, ih]

theorem map_snd_stampFrom (n : Nat) (ls : List (List Char)) :
    (stampFrom n ls).map Prod.snd = ls := by
  induction ls generalizing n with
  | nil => rfl
  | cons x xs ih => simp [stampFrom, ih]

theorem map_fst_stampFrom (n : Nat) (ls : List (List Char)) :
    (stampFrom n ls).map Prod.fst = List.range' n ls.length := by
  induction ls generalizing n with
  | nil => rfl
  | cons x xs ih => simp [stampFrom, ih, List.range'_succ]

theorem drop_stampFrom (n k : Nat) (ls : List (List Char)) :
    (stampFrom n ls).drop k = stampFrom (n + k) (ls.drop k) := by
  induction ls generalizing n k with
  | nil => simp [stampFrom]
  | cons x xs ih =>
    cases k with
    | zero => simp [stampFrom]
    | succ k =>
      simp only [stampFrom, List.drop_succ_cons, ih]
      congr 1
      omega

theorem mem_stampFrom_le (n : Nat) (ls : List (List Char))
    (e : Nat × List Char) (h : e ∈ stampFrom n ls) : n ≤ e.1 := by
  induction ls generalizing n with
  | nil => simp [stampFrom] at h
  | cons x xs ih =>
    simp only [stampFrom, List.mem_cons] at h
    rcases h with h | h
    · subst h; exact Nat.le_refl n
    · exact Nat.le_of_succ_le (ih (n + 1) h)

theorem filter_stampFrom_ge (c n : Nat) (ls : List (List Char)) :
    (stampFrom n ls).filter (fun e => decide (c ≤ e.1)) =
      (stampFrom n ls).drop (c - n) := by
  induction ls generalizing n with
  | nil => simp [stampFrom]
  | cons x xs ih =>
    by_cases hcn : c ≤ n
    · have hd : c - n = 0 := by omega
      rw [hd, List.drop_zero, List.filter_eq_self.mpr]
      intro e he
      have := mem_stampFrom_le n (x :: xs) e he
      simp only [decide_eq_true_eq]
      omega
    · have hd : c - n = (c - (n + 1)) + 1 := by omega
      rw [hd]
      simp only [stampFrom, List.filter_cons, List.drop_succ_cons]
      have : (decide (c ≤ n)) = false := by simp; omega
      rw [this]
      simp only [Bool.false_eq_true, if_false, ih]

/-- Window arithmetic of a bounded-deque append: dropping down to the last
`cap` elements after appending one element to a buffer that already holds
the last `cap` elements. -/
theorem dropWindow {α : Type} (s : List α) (y : α) (cap N : Nat) (hN : s.length = N) :
    (s.drop (N - cap) ++ [y]).drop ((s.drop (N - cap)).length + 1 - cap) =
      (s ++ [y]).drop (N + 1 - cap) := by
  have hdl : (s.drop (N - cap)).length = N - (N - cap) := by
    simp [List.length_drop, hN]
  rw [hdl, List.drop_append_eq_append_drop, List.drop_append_eq_append_drop,
    List.length_drop, hN]
  by_cases hcap : cap = 0
  · subst hcap
    have h1 : N - (N - 0) + 1 - 0 - (N - (N - 0)) = 1 := by omega
    have h2 : N + 1 - 0 - N = 1 := by omega
    rw [h1, h2, List.drop_drop]
    have h3 : N - 0 + (N - (N - 0) + 1 - 0) = N + 1 - 0 := by omega
    rw [h3]
  · by_cases hc : N < cap
    · have h1 : N - cap = 0 := by omega
      have h2 : N + 1 - cap = 0 := by omega
      have h3 : N - (N - cap) + 1 - cap = 0 := by omega
      simp [h1, h2, h3]
    · have h1 : N - (N - cap) + 1 - cap = 1 := by omega
      have h2 : N + 1 - cap - N = 0 := by omega
      rw [h1, h2, List.drop_drop]
      have h3 : N - cap + 1 = N + 1 - cap := by omega
      have h4 : (1 : Nat) - (N - (N - cap)) = 0 := by omega
      rw [h3, h4]

/-- The shape of every reachable console state: after appending `ls` from
the empty buffer, the counter equals the number of appends and the buffer
holds the `cap` most recent lines stamped with their append indices. -/
theorem appendAll_eq (cap : Nat) (ls : List (List Char)) :
    appendAll cap ls =
      { buf := (stampFrom 0 ls).drop (ls.length - cap), seq := ls.length } := by
  induction ls using List.reverseRecOn with
  | nil => simp [appendAll, initialConsole, stampFrom]
  | append_singleton ls a ih =>
    have hfold : appendAll cap (ls ++ [a]) = appendLine cap (appendAll cap ls) a := by
      simp [appendAll, List.foldl_append]
    rw [hfold, ih]
    simp only [appendLine, stampFrom_append, List.length_append, List.length_cons,
      List.length_nil, Nat.zero_add]
    congr 1
    exact dropWindow (stampFrom 0 ls) (ls.length, a) cap ls.length
      (length_stampFrom 0 ls)

theorem appendAll_buf_len (cap : Nat) (ls : List (List Char)) :
    (appendAll cap ls).buf.length = min ls.length cap := by
  rw [appendAll_eq]
  simp only [List.length_drop, length_stampFrom]
  omega

theorem linesSince_stamp (k : Nat) (rs : List (List Char)) (N : Nat) (since : Int)
    (hkN : k + rs.length = N) :
    (linesSince ⟨stampFrom k rs, N⟩ since).1 =
      ((stampFrom k rs).filter
        (fun e => decide (clampedCursor ⟨stampFrom k rs, N⟩ since ≤ (e.1 : Int)))).map
        Prod.snd := by
  have hlen : ((stampFrom k rs).map Prod.snd).length = rs.length := by
    rw [map_snd_stampFrom]
  have hL : (stampFrom k rs).length = rs.length := length_stampFrom k rs
  have hbase : (N : Int) - (rs.length : Int) = (k : Int) := by omega
  have hcc : clampedCursor ⟨stampFrom k rs, N⟩ since =
      max ((k : Int)) (min since (N : Int)) := by
    simp only [clampedCursor, hL, hbase]
  have hck : (k : Int) ≤ clampedCursor ⟨stampFrom k rs, N⟩ since := by
    rw [hcc]
    exact le_max_left _ _
  have hfilter : (stampFrom k rs).filter
        (fun e => decide (clampedCursor ⟨stampFrom k rs, N⟩ since ≤ (e.1 : Int))) =
      (stampFrom k rs).filter
        (fun e => decide ((clampedCursor ⟨stampFrom k rs, N⟩ since).toNat ≤ e.1)) := by
    apply List.filter_congr
    intro e he
    have h1 : k ≤ e.1 := mem_stampFrom_le k rs e he
    simp only [decide_eq_decide]
    omega
  rw [hfilter, filter_stampFrom_ge, drop_stampFrom, map_snd_stampFrom]
  simp only [linesSince, hlen, map_snd_stampFrom, hbase]
  have harg :
      (max ((k : Int)) (min since (N : Int)) - (k : Int)).toNat =
        (clampedCursor ⟨stampFrom k rs, N⟩ since).toNat - k := by
    rw [hcc]
    omega
  rw [harg]

/-!
C1 — the cursor-read operation.  The claim quantifies over "every reachable
buffer state"; by `appendAll_eq` these are exactly the states
`appendAll cap ls`, so the theorem quantifies over the append history `ls`
(and over the capacity, so that the claim's capacity-3 example is an
instance of the same statement; the production capacity is
`MAX_CONSOLE_LINES = 500`).
-/

/-- C1: for every integer cursor `since` and every reachable buffer state,
`api_console_lines` returns total = number of appends, the clamped cursor
lies in `[base, total]` with `base = total - resident_count`, the slice
offset never exceeds the resident count (no out-of-bounds indexing), and
the returned lines are exactly the resident lines whose sequence numbers
are `≥` the clamped cursor; in particular for capacity 3 after 10 appends,
`lines_since 0` returns the 3 resident lines with total 10, `lines_since 8`
the last 2, and `lines_since 10` / `lines_since 10000` return `[]`. -/
theorem claim_C1_cursor_read (cap : Nat) (ls : List (List Char)) (since : Int) :
    (linesSince (appendAll cap ls) since).2 = (appendAll cap ls).seq ∧
    ((appendAll cap ls).seq : Int) - ((appendAll cap ls).buf.length : Int) ≤
      clampedCursor (appendAll cap ls) since ∧
    clampedCursor (appendAll cap ls) since ≤ ((appendAll cap ls).seq : Int) ∧
    (clampedCursor (appendAll cap ls) since -
        (((appendAll cap ls).seq : Int) - ((appendAll cap ls).buf.length : Int))).toNat ≤
      (appendAll cap ls).buf.length ∧
    (linesSince (appendAll cap ls) since).1 =
      ((appendAll cap ls).buf.filter
        (fun e => decide (clampedCursor (appendAll cap ls) since ≤ (e.1 : Int)))).map
        Prod.snd ∧
    linesSince (appendAll 3 tenLines) 0 = ([['7'], ['8'], ['9']], 10) ∧
    linesSince (appendAll 3 tenLines) 8 = ([['8'], ['9']], 10) ∧
    linesSince (appendAll 3 tenLines) 10 = ([], 10) ∧
    linesSince (appendAll 3 tenLines) 10000 = ([], 10) := by
  have hblen : (appendAll cap ls).buf.length = min ls.length cap :=
    appendAll_buf_len cap ls
  have hseq : (appendAll cap ls).seq = ls.length := by rw [appendAll_eq]
  refine ⟨rfl, ?_, ?_, ?_, ?_, by decide, by decide, by decide, by decide⟩
  · exact le_max_left _ _
  · simp only [clampedCursor, hblen, hseq]
    omega
  · have h1 : clampedCursor (appendAll cap ls) since ≤ ((appendAll cap ls).seq : Int) := by
      simp only [clampedCursor, hblen, hseq]
      omega
    simp only [clampedCursor, hblen, hseq] at h1 ⊢
    omega
  · have hshape : appendAll cap ls =
        ⟨stampFrom (ls.length - cap) (ls.drop (ls.length - cap)), ls.length⟩ := by
      rw [appendAll_eq, drop_stampFrom, Nat.zero_add]
    rw [hshape]
    exact linesSince_stamp (ls.length - cap) (ls.drop (ls.length - cap)) ls.length since
      (by simp only [List.length_drop]; omega)

/-- C2: every append increments the sequence counter by exactly one; the
counter of a reachable state equals the total number of appends (never
reset or reused); the buffer holds exactly the `min(total, cap)` most
recent lines, oldest evicted first (for the production capacity,
`min(total, 500)`); the resident sequence numbers are the consecutive
integers from `next_sequence - resident_count` (the oldest resident
sequence number) up to `next_sequence - 1` — strictly increasing, no
gaps. -/
theorem claim_C2_sequence_invariants (cap : Nat) (ls : List (List Char)) :
    (∀ st line, (appendLine cap st line).seq = st.seq + 1) ∧
    (appendAll cap ls).seq = ls.length ∧
    (appendAll cap ls).buf =
      (stampFrom 0 ls).drop (ls.length - cap) ∧
    (appendAll cap ls).buf.length = min (appendAll cap ls).seq cap ∧
    (appendAll MAX_CONSOLE_LINES ls).buf.length = min ls.length 500 ∧
    (appendAll cap ls).buf.map Prod.fst =
      List.range' ((appendAll cap ls).seq - (appendAll cap ls).buf.length)
        (appendAll cap ls).buf.length := by
  have hseq : (appendAll cap ls).seq = ls.length := by rw [appendAll_eq]
  have hblen : (appendAll cap ls).buf.length = min ls.length cap :=
    appendAll_buf_len cap ls
  refine ⟨fun st line => rfl, hseq, by rw [appendAll_eq], by rw [hblen, hseq], ?_, ?_⟩
  · rw [appendAll_buf_len]
    rfl
  · rw [appendAll_eq]
    simp only [drop_stampFrom, map_fst_stampFrom, Nat.zero_add, List.length_drop]
    rw [appendAll_eq] at hblen hseq
    simp only [List.length_drop, length_stampFrom] at hblen hseq ⊢
    congr 1
    omega

theorem readFileEntries_offsets (raw : List Nat) :
    ∀ count pos runOff es p,
      readFileEntries raw count pos runOff = .ok (es, p) →
      ∀ i (hi : i < es.length),
        (es.get ⟨i, hi⟩).off = runOff + ((es.take i).map TmodEntry.clen).sum := by
  intro count
  induction count with
  | zero =>
    intro pos runOff es p h i hi
    simp only [readFileEntries, Except.ok.injEq, Prod.mk.injEq] at h
    obtain ⟨h1, _⟩ := h
    subst h1
    simp at hi
  | succ n ih =>
    intro pos runOff es p h i hi
    simp only [readFileEntries] at h
    cases hs : read7BitString raw pos with
    | error e => rw [hs] at h; simp at h
    | ok v =>
      obtain ⟨name, p1⟩ := v
      rw [hs] at h
      simp only at h
      cases hr : readFileEntries raw n (p1 + 8) (runOff + readInt32 raw (p1 + 4)) with
      | error e => rw [hr] at h; simp at h
      | ok w =>
        obtain ⟨es', p'⟩ := w
        rw [hr] at h
        simp only [Except.ok.injEq, Prod.mk.injEq] at h
        obtain ⟨h1, _⟩ := h
        subst h1
        cases i with
        | zero => simp
        | succ i =>
          have hi' : i < es'.length := by simpa using hi
          have := ih (p1 + 8) (runOff + readInt32 raw (p1 + 4)) es' p' hr i hi'
          simp only [List.get_cons_succ, List.take_succ_cons, List.map_cons,
            List.sum_cons] at this ⊢
          omega

/-- C4: entries of the file table carry no explicit offset field — entry
`i`'s computed offset into the data blob equals the sum of the
`compressed_length` fields of entries `0..i-1`; for the three-entry table
with compressed lengths `[10, 20, 5]`, entry 2's offset is exactly 30. -/
theorem claim_C4_cumulative_offsets :
    (∀ raw pos modName es fds,
      parseTmodFileTable raw pos = .ok (modName, es, fds) →
      ∀ i (hi : i < es.length),
        (es.get ⟨i, hi⟩).off = ((es.take i).map TmodEntry.clen).sum) ∧
    parseTmodFileTable tbl3 0 =
      .ok ([], [⟨asciiL "a", 0, 10, 10⟩, ⟨asciiL "b", 10, 20, 20⟩,
        ⟨asciiL "c", 30, 5, 5⟩], 36) := by
  constructor
  · intro raw pos modName es fds h i hi
    simp only [parseTmodFileTable] at h
    cases h1 : read7BitString raw pos with
    | error e => rw [h1] at h; simp at h
    | ok v1 =>
      obtain ⟨nm, p1⟩ := v1
      rw [h1] at h
      simp only at h
      cases h2 : read7BitString raw p1 with
      | error e => rw [h2] at h; simp at h
      | ok v2 =>
        obtain ⟨ver, p2⟩ := v2
        rw [h2] at h
        simp only at h
        cases h3 : readFileEntries raw (readInt32 raw p2) (p2 + 4) 0 with
        | error e => rw [h3] at h; simp at h
        | ok w =>
          obtain ⟨entries, p⟩ := w
          rw [h3] at h
          simp only [Except.ok.injEq, Prod.mk.injEq] at h
          obtain ⟨_, hes, _⟩ := h
          subst hes
          simpa using readFileEntries_offsets raw (readInt32 raw p2) (p2 + 4) 0
            entries p h3 i hi
  · decide

/-- Witness for C4: the general cumulative-offset law applied to the
concrete three-entry table gives entry 2's offset `= 10 + 20 = 30`. -/
theorem claim_C4_cumulative_offsets_witness :
    (([⟨asciiL "a", 0, 10, 10⟩, ⟨asciiL "b", 10, 20, 20⟩,
        ⟨asciiL "c", 30, 5, 5⟩] : List TmodEntry).get ⟨2, by decide⟩).off =
      ((([⟨asciiL "a", 0, 10, 10⟩, ⟨asciiL "b", 10, 20, 20⟩,
        ⟨asciiL "c", 30, 5, 5⟩] : List TmodEntry).take 2).map TmodEntry.clen).sum :=
  claim_C4_cumulative_offsets.1 tbl3 0 []
    [⟨asciiL "a", 0, 10, 10⟩, ⟨asciiL "b", 10, 20, 20⟩, ⟨asciiL "c", 30, 5, 5⟩]
    36 (by decide) 2 (by decide)

/-- C3: `parse_tmod_dependencies` never lets an exception escape (the
embedding is a total function over the caught `Except`); it returns `[]`
whenever the magic does not match and whenever any structural parse error
is raised inside the `try:` body; concretely, garbage bytes and a
magic-then-truncated-header input both yield `[]` via a structural
error. -/
theorem claim_C3_parser_resilience :
    (∀ inflate raw, raw.take 4 ≠ asciiL "TMOD" →
      parseTmodDependencies inflate raw = []) ∧
    (∀ inflate raw e, parseTmodDependenciesAux inflate raw = .error e →
      parseTmodDependencies inflate raw = []) ∧
    parseTmodDependencies inflateFail [1, 2, 3] = [] ∧
    parseTmodDependenciesAux inflateFail (asciiL "TMOD" ++ [133]) = .error .oob ∧
    parseTmodDependencies inflateFail (asciiL "TMOD" ++ [133]) = [] ∧
    parseTmodDependenciesAux inflateFail (asciiL "TMOD" ++ [0, 1, 1, 1]) = .error .oob ∧
    parseTmodDependencies inflateFail (asciiL "TMOD" ++ [0, 1, 1, 1]) = [] := by
  refine ⟨?_, ?_, by decide, by decide, by decide, by decide, by decide⟩
  · intro inflate raw h
    have hb : (raw.take 4 == asciiL "TMOD") = false := by
      simpa using h
    simp [parseTmodDependencies, parseTmodDependenciesAux, hb]
  · intro inflate raw e h
    simp [parseTmodDependencies, h]

/-- Witness for C3: both resilience implications applied at concrete
inputs — wrong magic `[1,2,3]`, and a truncated varint after a valid
magic. -/
theorem claim_C3_parser_resilience_witness :
    parseTmodDependencies inflateFail [1, 2, 3] = [] ∧
    parseTmodDependencies inflateFail (asciiL "TMOD" ++ [133]) = [] :=
  ⟨claim_C3_parser_resilience.1 inflateFail [1, 2, 3] (by decide),
   claim_C3_parser_resilience.2.1 inflateFail (asciiL "TMOD" ++ [133]) .oob (by decide)⟩

theorem land128_zero {n : Nat} (h : n < 128) : n &&& 128 = 0 := by
  have h2 := Nat.and_two_pow n 7
  have h3 : n.testBit 7 = false := Nat.testBit_lt_two_pow h
  rw [show (128 : Nat) = 2 ^ 7 from rfl, h2, h3]
  rfl

theorem land127_self {n : Nat} (h : n < 128) : n &&& 127 = n := by
  have := Nat.and_pow_two_sub_one_eq_mod n 7
  norm_num at this
  omega

theorem read7BitVarint_small {b : Nat} (h : b < 128) (rest : List Nat) :
    read7BitVarint (b :: rest) = .ok (b, 1) := by
  unfold read7BitVarint
  rw [if_pos (land128_zero h), land127_self h]

theorem read7BitString_encode7 (data : List Nat) (pos : Nat) (s t : List Nat)
    (hlen : s.length < 128) (hdrop : data.drop pos = encode7 s ++ t) :
    read7BitString data pos = .ok (s, pos + 1 + s.length) := by
  have hv : read7BitVarint (data.drop pos) = .ok (s.length, 1) := by
    rw [hdrop]
    exact read7BitVarint_small hlen (s ++ t)
  have hd1 : data.drop (pos + 1) = s ++ t := by
    rw [← List.drop_drop, hdrop]
    simp [encode7]
  unfold read7BitString
  rw [hv]
  simp only
  rw [hd1, List.take_left]

theorem encodeStrList_length_lt (rs : List (List Nat)) :
    rs.length < (encodeStrList rs).length := by
  induction rs with
  | nil => simp [encodeStrList]
  | cons r rs ih =>
    simp only [encodeStrList, List.map_cons, List.flatten_cons, List.length_cons,
      List.append_assoc, List.length_append] at ih ⊢
    simp only [encode7, List.length_cons]
    omega

theorem readDotnetStringList_encode (data : List Nat) :
    ∀ (rs : List (List Nat)) (f pos : Nat) (t : List Nat),
      (∀ r ∈ rs, r ≠ [] ∧ r.length < 128) →
      data.drop pos = encodeStrList rs ++ t →
      rs.length + 1 ≤ f →
      readDotnetStringList f data pos = .ok (rs, pos + (encodeStrList rs).length) := by
  intro rs
  induction rs with
  | nil =>
    intro f pos t hr hdrop hf
    obtain ⟨g, rfl⟩ : ∃ g, f = g + 1 := ⟨f - 1, by omega⟩
    simp only [readDotnetStringList]
    have h1 : read7BitString data pos = .ok ([], pos + 1 + List.length []) :=
      read7BitString_encode7 data pos [] t (by decide)
        (by simpa [encodeStrList, encode7] using hdrop)
    rw [h1]
    simp [encodeStrList]
  | cons r rs ih =>
    intro f pos t hr hdrop hf
    obtain ⟨g, rfl⟩ : ∃ g, f = g + 1 := ⟨f - 1, by omega⟩
    simp only [readDotnetStringList]
    have hrr := hr r (List.mem_cons_self r rs)
    have hdrop1 : data.drop pos = encode7 r ++ (encodeStrList rs ++ t) := by
      rw [hdrop]
      simp [encodeStrList, encode7]
    have h1 : read7BitString data pos = .ok (r, pos + 1 + r.length) :=
      read7BitString_encode7 data pos r (encodeStrList rs ++ t) hrr.2 hdrop1
    rw [h1]
    simp only
    have hne : r.isEmpty = false := by
      cases r with
      | nil => exact absurd rfl hrr.1
      | cons a as => rfl
    rw [hne]
    simp only [Bool.false_eq_true, if_false]
    have hd2 : data.drop (pos + 1 + r.length) = encodeStrList rs ++ t := by
      have e1 : pos + 1 + r.length = pos + (1 + r.length) := by omega
      rw [e1, ← List.drop_drop, hdrop1]
      have e2 : 1 + r.length = (encode7 r).length := by
        simp [encode7]
        omega
      rw [e2, List.drop_left]
    have h2 := ih g (pos + 1 + r.length) t
      (fun x hx => hr x (List.mem_cons_of_mem r hx)) hd2 (by simp at hf ⊢; omega)
    rw [h2]
    simp only [Except.ok.injEq, Prod.mk.injEq, true_and]
    simp only [encodeStrList, List.map_cons, List.flatten_cons, List.length_append,
      List.length_cons, encode7]
    omega

set_option maxHeartbeats 1600000 in
theorem parseInfoBinary_modRefs (rs : List (List Nat))
    (hr : ∀ r ∈ rs, r ≠ [] ∧ r.length < 128) :
    parseInfoBinary (encodeModRefsField rs) = .ok (rs.map stripVersionSuffix, []) := by
  have htag : (asciiL "modReferences").length = 13 := by decide
  have hD : encodeModRefsField rs =
      encode7 (asciiL "modReferences") ++ encodeStrList rs := rfl
  have hDlen : (encodeModRefsField rs).length = 14 + (encodeStrList rs).length := by
    rw [hD]
    simp only [encode7, List.length_append, List.length_cons, htag]
  unfold parseInfoBinary
  rw [hDlen]
  simp only [parseInfoLoop]
  have hpos0 : 0 < (encodeModRefsField rs).length := by rw [hDlen]; omega
  rw [if_pos hpos0]
  have h1 : read7BitString (encodeModRefsField rs) 0 =
      .ok (asciiL "modReferences", 0 + 1 + (asciiL "modReferences").length) :=
    read7BitString_encode7 (encodeModRefsField rs) 0 (asciiL "modReferences")
      (encodeStrList rs) (by rw [htag]; omega) (by rw [List.drop_zero]; exact hD)
  rw [h1]
  simp only
  have hne : (asciiL "modReferences").isEmpty = false := by decide
  have heq : (asciiL "modReferences" == asciiL "modReferences") = true := by simp
  rw [hne]
  simp only [Bool.false_eq_true, if_false]
  rw [heq]
  simp only [if_true]
  have hdropTag : (encodeModRefsField rs).drop (0 + 1 + (asciiL "modReferences").length) =
      encodeStrList rs ++ [] := by
    rw [List.append_nil]
    have e : 0 + 1 + (asciiL "modReferences").length =
        (encode7 (asciiL "modReferences")).length := by
      simp only [encode7, List.length_cons, htag]
    rw [e, hD, List.drop_left]
  have h2 := readDotnetStringList_encode (encodeModRefsField rs) rs
    ((encodeModRefsField rs).length + 1) (0 + 1 + (asciiL "modReferences").length) []
    hr hdropTag
    (by rw [hDlen]; have := encodeStrList_length_lt rs; omega)
  rw [h2]
  simp only
  have hpos2 : 0 + 1 + (asciiL "modReferences").length + (encodeStrList rs).length =
      (encodeModRefsField rs).length := by
    rw [hDlen, htag]
  rw [hpos2]
  rw [show (14 : Nat) + (encodeStrList rs).length =
    (13 + (encodeStrList rs).length) + 1 from by omega]
  simp only [parseInfoLoop]
  rw [if_neg (lt_irrefl (encodeModRefsField rs).length)]

theorem parseTmod_info_dispatch (inflate : List Nat → Except PErr (List Nat))
    (raw ver : List Nat) (p0 : Nat) (modName : List Nat)
    (entries : List TmodEntry) (fds : Nat) (en : TmodEntry)
    (infoBytes : List Nat) (mods weaks : List (List Nat))
    (hmagic : raw.take 4 = asciiL "TMOD")
    (hver : read7BitString raw 4 = .ok (ver, p0))
    (htbl : parseTmodFileTable raw (p0 + 20 + 256 + 4) = .ok (modName, entries, fds))
    (hfind : entries.find? (fun e => e.name == asciiL "Info") = some en)
    (hbytes : (en.ulen = en.clen ∧ infoBytes = (raw.drop (fds + en.off)).take en.clen) ∨
      (en.ulen ≠ en.clen ∧ inflate ((raw.drop (fds + en.off)).take en.clen) = .ok infoBytes))
    (hinfo : parseInfoBinary infoBytes = .ok (mods, weaks)) :
    parseTmodDependencies inflate raw = mods := by
  unfold parseTmodDependencies parseTmodDependenciesAux
  have hb : (raw.take 4 == asciiL "TMOD") = true := by simp [hmagic]
  rw [hb]
  simp only [if_true]
  rw [hver]
  simp only
  rw [htbl]
  simp only
  rw [hfind]
  simp only
  rcases hbytes with ⟨hequl, hbyteseq⟩ | ⟨hneul, hinfl⟩
  · rw [if_neg (by omega)]
    rw [← hbyteseq, hinfo]
  · rw [if_pos hneul, hinfl]
    simp only
    rw [hinfo]

/-- C5: whenever the archive parse reaches an `Info` entry whose (possibly
inflated) bytes parse to `(mod_refs, weak_refs)`, `parse_tmod_dependencies`
returns exactly `mod_refs` — the weak (optional) references are parsed but
never returned; an `Info` blob carrying a `modReferences` list returns the
reference names in their original order with any `@version` suffix stripped
(`"Foo@1.2.3"` becomes `"Foo"`), as the end-to-end run on the concrete
archive `archFoo` confirms. -/
theorem claim_C5_hard_dependencies :
    (∀ (inflate : List Nat → Except PErr (List Nat)) raw ver p0 modName entries
        fds en infoBytes mods weaks,
      raw.take 4 = asciiL "TMOD" →
      read7BitString raw 4 = .ok (ver, p0) →
      parseTmodFileTable raw (p0 + 20 + 256 + 4) = .ok (modName, entries, fds) →
      entries.find? (fun e => e.name == asciiL "Info") = some en →
      ((en.ulen = en.clen ∧ infoBytes = (raw.drop (fds + en.off)).take en.clen) ∨
        (en.ulen ≠ en.clen ∧
          inflate ((raw.drop (fds + en.off)).take en.clen) = .ok infoBytes)) →
      parseInfoBinary infoBytes = .ok (mods, weaks) →
      parseTmodDependencies inflate raw = mods) ∧
    (∀ rs, (∀ r ∈ rs, r ≠ [] ∧ r.length < 128) →
      parseInfoBinary (encodeModRefsField rs) = .ok (rs.map stripVersionSuffix, [])) ∧
    stripVersionSuffix (asciiL "Foo@1.2.3") = asciiL "Foo" ∧
    parseInfoBinary (encodeModRefsField [asciiL "Foo@1.2.3"] ++
        encode7 (asciiL "weakReferences") ++ encodeStrList [asciiL "Baz@2"]) =
      .ok ([asciiL "Foo"], [asciiL "Baz"]) ∧
    parseTmodDependencies inflateFail archFoo = [asciiL "Foo"] :=
  ⟨fun inflate raw ver p0 modName entries fds en infoBytes mods weaks h1 h2 h3 h4 h5 h6 =>
      parseTmod_info_dispatch inflate raw ver p0 modName entries fds en infoBytes
        mods weaks h1 h2 h3 h4 h5 h6,
   parseInfoBinary_modRefs, by decide, by decide, by decide⟩

/-- Witness for C5: the dispatch law applied to the concrete archive
`archFoo` (stored `Info` entry, hard dependency `Foo@1.2.3`), and the
`modReferences` law applied to the singleton list, both concluding with
the stripped name `Foo`. -/
theorem claim_C5_hard_dependencies_witness :
    parseTmodDependencies inflateFail archFoo = [asciiL "Foo"] ∧
    parseInfoBinary (encodeModRefsField [asciiL "Foo@1.2.3"]) =
      .ok ([asciiL "Foo"], []) :=
  ⟨claim_C5_hard_dependencies.1 inflateFail archFoo [] 5 []
      [⟨asciiL "Info", 0, 25, 25⟩] 304 ⟨asciiL "Info", 0, 25, 25⟩ infoFooBytes
      [asciiL "Foo"] []
      (by decide) (by decide) (by decide) (by decide)
      (Or.inl ⟨rfl, by decide⟩) (by decide),
   claim_C5_hard_dependencies.2.1 [asciiL "Foo@1.2.3"] (by decide)⟩

theorem takeWhile_all {p : Char → Bool} :
    ∀ l : List Char, (∀ x ∈ l, p x = true) → l.takeWhile p = l := by
  intro l h
  induction l with
  | nil => rfl
  | cons a as ih =>
    rw [List.takeWhile_cons, h a (List.mem_cons_self a as)]
    simp only [if_true]
    rw [ih (fun x hx => h x (List.mem_cons_of_mem a hx))]

theorem dropWhile_cons_false {p : Char → Bool} :
    ∀ (l : List Char) c cs, l.dropWhile p = c :: cs → p c = false := by
  intro l
  induction l with
  | nil => intro c cs h; cases h
  | cons a as ih =>
    intro c cs h
    rw [List.dropWhile_cons] at h
    by_cases hp : p a = true
    · rw [hp] at h
      simp only [if_true] at h
      exact ih c cs h
    · have hp' : p a = false := by
        cases hpa : p a
        · rfl
        · exact absurd hpa hp
      rw [hp'] at h
      simp only [Bool.false_eq_true, if_false] at h
      cases h
      exact hp'

theorem mem_of_mem_dropWhile {p : Char → Bool} {a : Char} {l : List Char}
    (h : a ∈ l.dropWhile p) : a ∈ l :=
  (List.dropWhile_sublist p).mem h

theorem mem_of_mem_takeWhile {p : Char → Bool} {a : Char} {l : List Char}
    (h : a ∈ l.takeWhile p) : a ∈ l :=
  (List.takeWhile_sublist p).mem h

theorem mem_of_mem_pyRStrip {a : Char} {l : List Char} (h : a ∈ pyRStrip l) : a ∈ l := by
  unfold pyRStrip at h
  rw [List.mem_reverse] at h
  exact List.mem_reverse.mp (mem_of_mem_dropWhile h)

theorem mem_of_mem_pyStrip {a : Char} {l : List Char} (h : a ∈ pyStrip l) : a ∈ l :=
  mem_of_mem_pyRStrip (mem_of_mem_dropWhile h)

theorem pyRStrip_append_space {c : Char} (hc : isPySpace c = true) (w : List Char) :
    pyRStrip (w ++ [c]) = pyRStrip w := by
  unfold pyRStrip
  rw [List.reverse_append]
  simp [List.dropWhile_cons, hc]

theorem pyStrip_append_space {c : Char} (hc : isPySpace c = true) (w : List Char) :
    pyStrip (w ++ [c]) = pyStrip w := by
  unfold pyStrip
  rw [pyRStrip_append_space hc]

theorem pyLStrip_head {l : List Char} {c : Char}
    (h : (pyLStrip l).head? = some c) : isPySpace c = false := by
  unfold pyLStrip at h
  cases hd : l.dropWhile isPySpace with
  | nil => rw [hd] at h; cases h
  | cons x xs =>
    rw [hd] at h
    simp only [List.head?_cons, Option.some.injEq] at h
    exact h ▸ dropWhile_cons_false l x xs hd

theorem pyRStrip_getLast {l : List Char} {c : Char}
    (h : (pyRStrip l).getLast? = some c) : isPySpace c = false := by
  unfold pyRStrip at h
  rw [List.getLast?_reverse] at h
  cases hd : l.reverse.dropWhile isPySpace with
  | nil => rw [hd] at h; cases h
  | cons x xs =>
    rw [hd] at h
    simp only [List.head?_cons, Option.some.injEq] at h
    exact h ▸ dropWhile_cons_false l.reverse x xs hd

theorem getLast_pyStrip {l : List Char} {c : Char}
    (h : (pyStrip l).getLast? = some c) : isPySpace c = false := by
  unfold pyStrip pyLStrip at h
  have hsuffix : (pyRStrip l).dropWhile isPySpace <:+ pyRStrip l :=
    List.dropWhile_suffix isPySpace
  obtain ⟨pre, hpre⟩ := hsuffix
  cases hd : (pyRStrip l).dropWhile isPySpace with
  | nil => rw [hd] at h; cases h
  | cons x xs =>
    have hne : (pyRStrip l).dropWhile isPySpace ≠ [] := by rw [hd]; simp
    have heq : (pyRStrip l).getLast? = ((pyRStrip l).dropWhile isPySpace).getLast? := by
      conv_lhs => rw [← hpre]
      exact List.getLast?_append_of_ne_nil pre hne
    exact pyRStrip_getLast (by rw [heq]; exact h)

theorem noEdgeSpace_pyStrip (l : List Char) : noEdgeSpace (pyStrip l) :=
  ⟨fun c hc => pyLStrip_head hc, fun c hc => getLast_pyStrip hc⟩

theorem not_cr_afterLastCR (l : List Char) : '\r' ∉ afterLastCR l := by
  unfold afterLastCR
  intro h
  rw [List.mem_reverse] at h
  have := List.mem_takeWhile_imp h
  simp at this

theorem afterLastCR_id {l : List Char} (h : '\r' ∉ l) : afterLastCR l = l := by
  unfold afterLastCR
  rw [takeWhile_all l.reverse (fun x hx => by
    rw [List.mem_reverse] at hx
    simp only [decide_eq_true_eq]
    intro hxe
    exact h (hxe ▸ hx))]
  exact List.reverse_reverse l

theorem mem_of_mem_afterLastCR {a : Char} {l : List Char}
    (h : a ∈ afterLastCR l) : a ∈ l := by
  unfold afterLastCR at h
  rw [List.mem_reverse] at h
  exact List.mem_reverse.mp (mem_of_mem_takeWhile h)

theorem drainRest_lt {p : List Char} (h : p.contains '\n' = true) :
    ((p.dropWhile (fun c => c ≠ '\n')).tail).length < p.length := by
  have hmem : '\n' ∈ p := by
    simpa using h
  have hne : p.dropWhile (fun c => c ≠ '\n') ≠ [] := by
    intro hnil
    rw [List.dropWhile_eq_nil_iff] at hnil
    have := hnil '\n' hmem
    simp at this
  have h1 : (p.dropWhile (fun c => c ≠ '\n')).length ≤ p.length :=
    (List.dropWhile_sublist _).length_le
  have h2 : ((p.dropWhile (fun c => c ≠ '\n')).tail).length <
      (p.dropWhile (fun c => c ≠ '\n')).length := by
    cases hd : p.dropWhile (fun c => c ≠ '\n') with
    | nil => exact absurd hd hne
    | cons x xs => simp
  omega

theorem drainLinesGo_isSome : ∀ (f : Nat) (p : List Char), p.length < f →
    (drainLinesGo f p).isSome = true := by
  intro f
  induction f with
  | zero => intro p hp; omega
  | succ f ih =>
    intro p hp
    simp only [drainLinesGo]
    cases hc : p.contains '\n' with
    | false => simp
    | true =>
      simp only [if_true]
      have hlt := drainRest_lt hc
      have := ih ((p.dropWhile (fun c => c ≠ '\n')).tail) (by omega)
      cases hrec : drainLinesGo f ((p.dropWhile (fun c => c ≠ '\n')).tail) with
      | none => rw [hrec] at this; simp at this
      | some v =>
        obtain ⟨ls, rem⟩ := v
        rfl

theorem drainLinesGo_mem : ∀ (f : Nat) (p : List Char) (ls : List (List Char))
    (rem : List Char), drainLinesGo f p = some (ls, rem) →
    (∀ l ∈ ls, '\n' ∉ l) ∧ rem.contains '\n' = false := by
  intro f
  induction f with
  | zero => intro p ls rem h; cases h
  | succ f ih =>
    intro p ls rem h
    simp only [drainLinesGo] at h
    cases hc : p.contains '\n' with
    | false =>
      rw [hc] at h
      simp only [Bool.false_eq_true, if_false, Option.some.injEq, Prod.mk.injEq] at h
      obtain ⟨h1, h2⟩ := h
      subst h1
      subst h2
      exact ⟨fun l hl => absurd hl (List.not_mem_nil l), hc⟩
    | true =>
      rw [hc] at h
      simp only [if_true] at h
      cases hrec : drainLinesGo f ((p.dropWhile (fun c => c ≠ '\n')).tail) with
      | none => rw [hrec] at h; cases h
      | some v =>
        obtain ⟨ls', rem'⟩ := v
        rw [hrec] at h
        simp only [Option.some.injEq, Prod.mk.injEq] at h
        obtain ⟨h1, h2⟩ := h
        subst h1
        subst h2
        have hih := ih _ ls' rem' hrec
        refine ⟨?_, hih.2⟩
        intro l hl
        rcases List.mem_cons.mp hl with hl | hl
        · subst hl
          intro hmem
          have := List.mem_takeWhile_imp hmem
          simp at this
        · exact hih.1 l hl

theorem takeWhile_append_cons {p : Char → Bool} :
    ∀ (s : List Char), (∀ x ∈ s, p x = true) → ∀ (b : Char), p b = false →
    ∀ (rest : List Char), (s ++ b :: rest).takeWhile p = s := by
  intro s
  induction s with
  | nil =>
    intro _ b hb rest
    simp [List.takeWhile_cons, hb]
  | cons a as ih =>
    intro hall b hb rest
    simp only [List.cons_append, List.takeWhile_cons,
      hall a (List.mem_cons_self a as), if_true]
    rw [ih (fun x hx => hall x (List.mem_cons_of_mem a hx)) b hb rest]

theorem dropWhile_append_cons {p : Char → Bool} :
    ∀ (s : List Char), (∀ x ∈ s, p x = true) → ∀ (b : Char), p b = false →
    ∀ (rest : List Char), (s ++ b :: rest).dropWhile p = b :: rest := by
  intro s
  induction s with
  | nil =>
    intro _ b hb rest
    simp [List.dropWhile_cons, hb]
  | cons a as ih =>
    intro hall b hb rest
    simp only [List.cons_append, List.dropWhile_cons,
      hall a (List.mem_cons_self a as), if_true]
    exact ih (fun x hx => hall x (List.mem_cons_of_mem a hx)) b hb rest

theorem drainLinesGo_clean : ∀ (segs : List (List Char)) (trailing : List Char)
    (f : Nat), (∀ s ∈ segs, '\n' ∉ s) → '\n' ∉ trailing →
    (joinNl segs ++ trailing).length < f →
    drainLinesGo f (joinNl segs ++ trailing) = some (segs, trailing) := by
  intro segs
  induction segs with
  | nil =>
    intro trailing f hsegs htr hf
    obtain ⟨g, rfl⟩ : ∃ g, f = g + 1 := ⟨f - 1, by omega⟩
    simp only [joinNl, List.map_nil, List.flatten_nil, List.nil_append] at hf ⊢
    simp only [drainLinesGo]
    have hc : trailing.contains '\n' = false := by
      simpa using htr
    rw [hc]
    simp
  | cons s segs ih =>
    intro trailing f hsegs htr hf
    obtain ⟨g, rfl⟩ : ∃ g, f = g + 1 := ⟨f - 1, by omega⟩
    have hs : '\n' ∉ s := hsegs s (List.mem_cons_self s segs)
    have hshape : joinNl (s :: segs) ++ trailing =
        s ++ '\n' :: (joinNl segs ++ trailing) := by
      simp [joinNl]
    rw [hshape] at hf ⊢
    simp only [drainLinesGo]
    have hc : (s ++ '\n' :: (joinNl segs ++ trailing)).contains '\n' = true := by
      simp
    rw [hc]
    simp only [if_true]
    have hall : ∀ x ∈ s, (fun c => decide (c ≠ '\n')) x = true := by
      intro x hx
      simp only [decide_eq_true_eq]
      intro hxe
      exact hs (hxe ▸ hx)
    have hall : ∀ x ∈ s, (fun c => decide (c ≠ '\n')) x = true := by
      intro x hx
      simp only [decide_eq_true_eq]
      intro hxe
      exact hs (hxe ▸ hx)
    have hnl : (fun c => decide (c ≠ '\n')) '\n' = false := by simp
    have htake : (s ++ '\n' :: (joinNl segs ++ trailing)).takeWhile
        (fun c => c ≠ '\n') = s :=
      takeWhile_append_cons s hall '\n' hnl (joinNl segs ++ trailing)
    have hdrop : (s ++ '\n' :: (joinNl segs ++ trailing)).dropWhile
        (fun c => c ≠ '\n') = '\n' :: (joinNl segs ++ trailing) :=
      dropWhile_append_cons s hall '\n' hnl (joinNl segs ++ trailing)
    rw [htake, hdrop]
    simp only [List.tail_cons]
    have hflen : (joinNl segs ++ trailing).length < g := by
      simp only [List.length_append, List.length_cons] at hf ⊢
      omega
    rw [ih trailing g (fun x hx => hsegs x (List.mem_cons_of_mem s hx)) htr hflen]

theorem stripAnsiGo_isSome : ∀ (f : Nat) (l : List Char), l.length < f →
    (stripAnsiGo f l).isSome = true := by
  intro f
  induction f with
  | zero => intro l hl; omega
  | succ f ih =>
    intro l hl
    cases l with
    | nil => rfl
    | cons c rest =>
      simp only [List.length_cons] at hl
      cases rest with
      | nil =>
        simp only [stripAnsiGo]
        by_cases hc : c = '\x1b'
        · rw [if_pos hc]
          rfl
        · rw [if_neg hc]
          have := ih [] (by simp; omega)
          cases hrec : stripAnsiGo f [] with
          | none => rw [hrec] at this; simp at this
          | some r => simp
      | cons d rest2 =>
        simp only [List.length_cons] at hl
        simp only [stripAnsiGo]
        by_cases hc : c = '\x1b'
        · rw [if_pos hc]
          by_cases hd1 : isSimpleFinal d = true
          · rw [if_pos hd1]
            exact ih rest2 (by omega)
          · rw [if_neg hd1]
            by_cases hd2 : d = '['
            · rw [if_pos hd2]
              cases hr2 : (rest2.dropWhile isCsiParam).dropWhile isCsiInter with
              | nil =>
                show (Option.map (fun r => c :: r)
                  (stripAnsiGo f (d :: rest2))).isSome = true
                have := ih (d :: rest2) (by simp; omega)
                cases hrec : stripAnsiGo f (d :: rest2) with
                | none => rw [hrec] at this; simp at this
                | some r => simp
              | cons e rest3 =>
                show (if isCsiFinal e = true then stripAnsiGo f rest3
                  else Option.map (fun r => c :: r)
                    (stripAnsiGo f (d :: rest2))).isSome = true
                have hlen3 : rest3.length < rest2.length := by
                  have h1 : (rest2.dropWhile isCsiParam).length ≤ rest2.length :=
                    (List.dropWhile_sublist _).length_le
                  have h2 : ((rest2.dropWhile isCsiParam).dropWhile isCsiInter).length ≤
                      (rest2.dropWhile isCsiParam).length :=
                    (List.dropWhile_sublist _).length_le
                  rw [hr2] at h2
                  simp only [List.length_cons] at h2
                  omega
                by_cases he : isCsiFinal e = true
                · rw [if_pos he]
                  exact ih rest3 (by omega)
                · rw [if_neg he]
                  have := ih (d :: rest2) (by simp; omega)
                  cases hrec : stripAnsiGo f (d :: rest2) with
                  | none => rw [hrec] at this; simp at this
                  | some r => simp
            · rw [if_neg hd2]
              have := ih (d :: rest2) (by simp; omega)
              cases hrec : stripAnsiGo f (d :: rest2) with
              | none => rw [hrec] at this; simp at this
              | some r => simp
        · rw [if_neg hc]
          have := ih (d :: rest2) (by simp; omega)
          cases hrec : stripAnsiGo f (d :: rest2) with
          | none => rw [hrec] at this; simp at this
          | some r => simp

theorem stripAnsiGo_no_esc : ∀ (f : Nat) (l : List Char), l.length < f →
    '\x1b' ∉ l → stripAnsiGo f l = some l := by
  intro f
  induction f with
  | zero => intro l hl; omega
  | succ f ih =>
    intro l hl hesc
    match l with
    | [] => rfl
    | c :: rest =>
      have hc : ¬ c = '\x1b' := fun he => hesc (he ▸ List.mem_cons_self c rest)
      simp only [stripAnsiGo]
      rw [if_neg hc]
      simp only [List.length_cons] at hl
      rw [ih rest (by omega) (fun hm => hesc (List.mem_cons_of_mem c hm))]
      rfl

theorem stripAnsiGo_sublist : ∀ (f : Nat) (l r : List Char),
    stripAnsiGo f l = some r → List.Sublist r l := by
  intro f
  induction f with
  | zero => intro l r h; cases h
  | succ f ih =>
    intro l r h
    cases l with
    | nil =>
      simp only [stripAnsiGo, Option.some.injEq] at h
      subst h
      exact List.Sublist.refl []
    | cons c rest =>
      cases rest with
      | nil =>
        simp only [stripAnsiGo] at h
        by_cases hc : c = '\x1b'
        · rw [if_pos hc] at h
          simp only [Option.some.injEq] at h
          subst h
          exact List.Sublist.refl [c]
        · rw [if_neg hc] at h
          simp only [Option.map_eq_some'] at h
          obtain ⟨r', hr', rfl⟩ := h
          exact List.Sublist.cons₂ c (ih [] r' hr')
      | cons d rest2 =>
        simp only [stripAnsiGo] at h
        by_cases hc : c = '\x1b'
        · rw [if_pos hc] at h
          by_cases hd1 : isSimpleFinal d = true
          · rw [if_pos hd1] at h
            exact (ih rest2 r h).trans
              ((List.sublist_cons_self d rest2).trans
                (List.sublist_cons_self c (d :: rest2)))
          · rw [if_neg hd1] at h
            by_cases hd2 : d = '['
            · rw [if_pos hd2] at h
              cases hr2 : (rest2.dropWhile isCsiParam).dropWhile isCsiInter with
              | nil =>
                rw [hr2] at h
                have h' : Option.map (fun r => c :: r)
                    (stripAnsiGo f (d :: rest2)) = some r := h
                simp only [Option.map_eq_some'] at h'
                obtain ⟨r', hr', rfl⟩ := h'
                exact List.Sublist.cons₂ c (ih (d :: rest2) r' hr')
              | cons e rest3 =>
                rw [hr2] at h
                have h' : (if isCsiFinal e = true then stripAnsiGo f rest3
                  else Option.map (fun r => c :: r)
                    (stripAnsiGo f (d :: rest2))) = some r := h
                by_cases he : isCsiFinal e = true
                · rw [if_pos he] at h'
                  have h3 : List.Sublist rest3 rest2 := by
                    have s1 : List.Sublist rest3 (e :: rest3) :=
                      List.sublist_cons_self e rest3
                    rw [← hr2] at s1
                    exact (s1.trans (List.dropWhile_sublist _)).trans
                      (List.dropWhile_sublist _)
                  exact (ih rest3 r h').trans
                    (h3.trans ((List.sublist_cons_self d rest2).trans
                      (List.sublist_cons_self c (d :: rest2))))
                · rw [if_neg he] at h'
                  simp only [Option.map_eq_some'] at h'
                  obtain ⟨r', hr', rfl⟩ := h'
                  exact List.Sublist.cons₂ c (ih (d :: rest2) r' hr')
            · rw [if_neg hd2] at h
              simp only [Option.map_eq_some'] at h
              obtain ⟨r', hr', rfl⟩ := h
              exact List.Sublist.cons₂ c (ih (d :: rest2) r' hr')
        · rw [if_neg hc] at h
          simp only [Option.map_eq_some'] at h
          obtain ⟨r', hr', rfl⟩ := h
          exact List.Sublist.cons₂ c (ih (d :: rest2) r' hr')

theorem stripAnsi_no_esc {l : List Char} (h : '\x1b' ∉ l) : stripAnsi l = l := by
  unfold stripAnsi
  rw [stripAnsiGo_no_esc (l.length + 1) l (by omega) h]
  rfl

theorem stripAnsi_sublist (l : List Char) : List.Sublist (stripAnsi l) l := by
  unfold stripAnsi
  cases hrec : stripAnsiGo (l.length + 1) l with
  | none => exact List.Sublist.refl l
  | some r => exact stripAnsiGo_sublist (l.length + 1) l r hrec

theorem mem_of_mem_stripAnsi {a : Char} {l : List Char}
    (h : a ∈ stripAnsi l) : a ∈ l :=
  (stripAnsi_sublist l).mem h

theorem contains_eq_false_of_not_mem {a : Char} {l : List Char}
    (h : a ∉ l) : l.contains a = false := by
  cases hb : l.contains a with
  | false => rfl
  | true =>
    have : a ∈ l := by simpa using hb
    exact absurd this h

theorem map_id_of_mem {f : List Char → List Char} :
    ∀ (l : List (List Char)), (∀ x ∈ l, f x = x) → l.map f = l := by
  intro l h
  induction l with
  | nil => rfl
  | cons a as ih =>
    simp only [List.map_cons, h a (List.mem_cons_self a as)]
    rw [ih (fun x hx => h x (List.mem_cons_of_mem a hx))]

theorem drainLines_spec (p : List Char) :
    (∀ l ∈ (drainLines p).1, '\n' ∉ l) ∧
    ((drainLines p).2).contains '\n' = false := by
  unfold drainLines
  cases hrec : drainLinesGo (p.length + 1) p with
  | none =>
    have := drainLinesGo_isSome (p.length + 1) p (by omega)
    rw [hrec] at this
    simp at this
  | some v =>
    obtain ⟨ls, rem⟩ := v
    simpa using drainLinesGo_mem (p.length + 1) p ls rem hrec

theorem processRawLine_no_crnl {raw : List Char} (hnl : '\n' ∉ raw) :
    '\n' ∉ processRawLine raw ∧ '\r' ∉ processRawLine raw := by
  unfold processRawLine
  cases hcr : raw.contains '\r' with
  | true =>
    simp only [if_true]
    exact ⟨fun hmem => hnl (mem_of_mem_afterLastCR (mem_of_mem_pyStrip hmem)),
      fun hmem => not_cr_afterLastCR raw (mem_of_mem_pyStrip hmem)⟩
  | false =>
    simp only [Bool.false_eq_true, if_false]
    have hcr' : '\r' ∉ raw := by
      intro hm
      have : raw.contains '\r' = true := by simpa using hm
      rw [this] at hcr
      cases hcr
    exact ⟨fun hmem => hnl (mem_of_mem_pyStrip hmem),
      fun hmem => hcr' (mem_of_mem_pyStrip hmem)⟩

theorem noEdgeSpace_processRawLine (raw : List Char) :
    noEdgeSpace (processRawLine raw) := by
  unfold processRawLine
  exact noEdgeSpace_pyStrip _

theorem dockerProcessChunk_mem {pending chunk l : List Char}
    (h : l ∈ (dockerProcessChunk pending chunk).1) :
    ∃ raw ∈ (drainLines (pending ++ stripAnsi chunk)).1,
      processRawLine raw = l ∧ l ≠ [] := by
  unfold dockerProcessChunk at h
  simp only [List.mem_filter, List.mem_map] at h
  obtain ⟨⟨raw, hraw, hrl⟩, hne⟩ := h
  refine ⟨raw, hraw, hrl, ?_⟩
  intro hl
  rw [hl] at hne
  simp at hne

/-- C6: each iteration of the Docker poller's chunk loop splits the pending
text on `'\n'` so that every appended line contains no embedded newline and
no carriage return (only the text after the last `'\r'` of a raw line
survives, then the line is stripped); the chunk
`"progress 1%\rprogress 50%\rprogress 100%\n"` yields exactly the single
line `"progress 100%"`, and `"A\nB\nC\n"` yields exactly `"A"`, `"B"`,
`"C"`. -/
theorem claim_C6_chunk_normalisation :
    (∀ pending chunk l, l ∈ (dockerProcessChunk pending chunk).1 →
      '\n' ∉ l ∧ '\r' ∉ l) ∧
    dockerProcessChunk [] ("progress 1%\rprogress 50%\rprogress 100%\n".toList) =
      ([("progress 100%").toList], []) ∧
    dockerProcessChunk [] ("A\nB\nC\n".toList) = ([['A'], ['B'], ['C']], []) := by
  refine ⟨?_, by decide, by decide⟩
  intro pending chunk l hl
  obtain ⟨raw, hraw, hrl, _⟩ := dockerProcessChunk_mem hl
  have hnl : '\n' ∉ raw := (drainLines_spec (pending ++ stripAnsi chunk)).1 raw hraw
  exact hrl ▸ processRawLine_no_crnl hnl

/-- Witness for C6: the no-embedded-newline/carriage-return law applied to
the line `"A"` emitted from the chunk `"A\nB\nC\n"`. -/
theorem claim_C6_chunk_normalisation_witness :
    '\n' ∉ ['A'] ∧ '\r' ∉ ['A'] :=
  claim_C6_chunk_normalisation.1 [] ("A\nB\nC\n".toList) ['A'] (by decide)

theorem readLinesGo_shape : ∀ (c cur raw : List Char),
    raw ∈ readLinesGo cur c → '\n' ∉ cur →
    (∃ w, raw = w ++ ['\n'] ∧ '\n' ∉ w) ∨ '\n' ∉ raw := by
  intro c
  induction c with
  | nil =>
    intro cur raw h hcur
    unfold readLinesGo at h
    cases hc : cur.isEmpty with
    | true => rw [hc] at h; simp at h
    | false =>
      rw [hc] at h
      simp only [Bool.false_eq_true, if_false, List.mem_singleton] at h
      subst h
      right
      intro hm
      exact hcur (List.mem_reverse.mp hm)
  | cons b rest ih =>
    intro cur raw h hcur
    unfold readLinesGo at h
    by_cases hb : b = '\n'
    · rw [if_pos hb] at h
      rcases List.mem_cons.mp h with h | h
      · left
        exact ⟨cur.reverse, h, fun hm => hcur (List.mem_reverse.mp hm)⟩
      · exact ih [] raw h (List.not_mem_nil _)
    · rw [if_neg hb] at h
      apply ih (b :: cur) raw h
      intro hm
      rcases List.mem_cons.mp hm with hm | hm
      · exact hb hm.symm
      · exact hcur hm

theorem translateNewlines_no_cr : ∀ (l : List Char), '\r' ∉ translateNewlines l := by
  intro l
  induction l using translateNewlines.induct with
  | case1 => simp [translateNewlines]
  | case2 rest ih =>
    simp [translateNewlines]
    exact ih
  | case3 rest h ih =>
    simp [translateNewlines]
    exact ih
  | case4 c rest h1 h2 ih =>
    simp [translateNewlines]
    exact ⟨fun he => h2 he.symm, ih⟩

theorem readLinesGo_chars : ∀ (c cur raw : List Char) (a : Char),
    raw ∈ readLinesGo cur c → a ∈ raw → a ∈ cur ∨ a ∈ c ∨ a = '\n' := by
  intro c
  induction c with
  | nil =>
    intro cur raw a hmem ha
    unfold readLinesGo at hmem
    cases hc : cur.isEmpty with
    | true => rw [hc] at hmem; simp at hmem
    | false =>
      rw [hc] at hmem
      simp only [Bool.false_eq_true, if_false, List.mem_singleton] at hmem
      subst hmem
      exact Or.inl (List.mem_reverse.mp ha)
  | cons b rest ih =>
    intro cur raw a hmem ha
    unfold readLinesGo at hmem
    by_cases hb : b = '\n'
    · rw [if_pos hb] at hmem
      rcases List.mem_cons.mp hmem with hmem | hmem
      · subst hmem
        rcases List.mem_append.mp ha with ha | ha
        · exact Or.inl (List.mem_reverse.mp ha)
        · right; right; simpa using ha
      · rcases ih [] raw a hmem ha with hc | hc | hc
        · simp at hc
        · exact Or.inr (Or.inl (List.mem_cons_of_mem b hc))
        · exact Or.inr (Or.inr hc)
    · rw [if_neg hb] at hmem
      rcases ih (b :: cur) raw a hmem ha with hc | hc | hc
      · rcases List.mem_cons.mp hc with hc | hc
        · exact Or.inr (Or.inl (by rw [hc]; exact List.mem_cons_self b rest))
        · exact Or.inl hc
      · exact Or.inr (Or.inl (List.mem_cons_of_mem b hc))
      · exact Or.inr (Or.inr hc)

theorem sublist_concat_nl {x w : List Char} (hw : '\n' ∉ w)
    (hs : List.Sublist x (w ++ ['\n'])) (hx : '\n' ∈ x) :
    ∃ y, x = y ++ ['\n'] ∧ '\n' ∉ y := by
  rw [List.sublist_append_iff] at hs
  obtain ⟨x₁, x₂, rfl, h1, h2⟩ := hs
  rw [List.sublist_singleton] at h2
  rcases h2 with rfl | rfl
  · rw [List.append_nil] at hx
    exact absurd (h1.mem hx) hw
  · exact ⟨x₁, rfl, fun hm => hw (h1.mem hm)⟩

theorem fileProcessLine_spec {content raw l : List Char}
    (hraw : raw ∈ readLines content) (h : fileProcessLine raw = some l) :
    l ≠ [] ∧ noEdgeSpace l ∧ '\n' ∉ l ∧ '\r' ∉ l := by
  have hnocr : '\r' ∉ raw := by
    intro hm
    unfold readLines at hraw
    rcases readLinesGo_chars (translateNewlines content) [] raw '\r' hraw hm with
      hc | hc | hc
    · simp at hc
    · exact translateNewlines_no_cr content hc
    · exact absurd hc (by decide)
  simp only [fileProcessLine] at h
  cases hie : (pyStrip (stripAnsi raw)).isEmpty with
  | true => rw [hie] at h; simp at h
  | false =>
    rw [hie] at h
    simp only [Bool.false_eq_true, if_false, Option.some.injEq] at h
    subst h
    refine ⟨by simpa using hie, noEdgeSpace_pyStrip _, ?_, ?_⟩
    · intro hmem
      have hmem1 : '\n' ∈ stripAnsi raw := mem_of_mem_pyStrip hmem
      unfold readLines at hraw
      rcases readLinesGo_shape (translateNewlines content) [] raw hraw
        (List.not_mem_nil _) with ⟨w, hrw, hw⟩ | hnone
      · subst hrw
        obtain ⟨y, hy, hyn⟩ :=
          sublist_concat_nl hw (stripAnsi_sublist (w ++ ['\n'])) hmem1
        rw [hy, pyStrip_append_space (by decide) y] at hmem
        exact hyn (mem_of_mem_pyStrip hmem)
      · exact hnone (mem_of_mem_stripAnsi hmem1)
    · intro hmem
      exact hnocr (mem_of_mem_stripAnsi (mem_of_mem_pyStrip hmem))

/-- C10: every line appended by either poller is non-empty, carries no
leading or trailing whitespace (`strip()` runs last in both pipelines) and
contains no embedded newline or carriage return.  For the Docker poller
the `\r`-freedom comes from the explicit `rsplit('\r', 1)` overwrite
handling; for the file poller it comes from the text-mode (universal
newlines) read itself — `readline` translates `'\r'` and `'\r\n'` to
`'\n'`, so a returned line never contains a carriage return. -/
theorem claim_C10_buffer_hygiene :
    (∀ pending chunk l, l ∈ (dockerProcessChunk pending chunk).1 →
      l ≠ [] ∧ noEdgeSpace l ∧ '\n' ∉ l ∧ '\r' ∉ l) ∧
    (∀ content raw l, raw ∈ readLines content → fileProcessLine raw = some l →
      l ≠ [] ∧ noEdgeSpace l ∧ '\n' ∉ l ∧ '\r' ∉ l) := by
  constructor
  · intro pending chunk l hl
    obtain ⟨raw, hraw, hrl, hne⟩ := dockerProcessChunk_mem hl
    have hnl : '\n' ∉ raw := (drainLines_spec (pending ++ stripAnsi chunk)).1 raw hraw
    have hcrnl := processRawLine_no_crnl hnl
    exact ⟨hne, hrl ▸ noEdgeSpace_processRawLine raw, hrl ▸ hcrnl.1, hrl ▸ hcrnl.2⟩
  · intro content raw l hraw h
    exact fileProcessLine_spec hraw h

/-- Witness for C10: the hygiene laws applied to the line `"A"` emitted by
the Docker poller from `"A\nB\nC\n"`, and to the line `"a"` read by the
file poller from a file whose raw bytes are `"a\rb\n"` (the `'\r'` is a
line terminator under universal newlines, so the file yields the two clean
lines `"a"` and `"b"`). -/
theorem claim_C10_buffer_hygiene_witness :
    (['A'] ≠ [] ∧ noEdgeSpace ['A'] ∧ '\n' ∉ ['A'] ∧ '\r' ∉ ['A']) ∧
    (['a'] ≠ [] ∧ noEdgeSpace ['a'] ∧ '\n' ∉ ['a'] ∧ '\r' ∉ ['a']) :=
  ⟨claim_C10_buffer_hygiene.1 [] ("A\nB\nC\n".toList) ['A'] (by decide),
   claim_C10_buffer_hygiene.2 ("a\rb\n".toList) ['a', '\n'] ['a']
     (by decide) (by decide)⟩

/-- C7 as stated is falsified: the chunk `" A\n"` is free of ANSI escapes
and carriage returns, and its single complete line is `" A"`, yet
normalisation emits `"A"` — `strip()` trims the leading space, so
normalisation is not the identity on merely ANSI/CR-free input. -/
theorem claim_C7_identity_counterexample :
    '\x1b' ∉ [' ', 'A', '\n'] ∧ '\r' ∉ [' ', 'A', '\n'] ∧
    joinNl [[' ', 'A']] = [' ', 'A', '\n'] ∧
    (dockerProcessChunk [] [' ', 'A', '\n']).1 ≠ [[' ', 'A']] ∧
    dockerProcessChunk [] [' ', 'A', '\n'] = ([['A']], []) := by decide

theorem processRawLine_clean {s : List Char} (hrs : '\r' ∉ s)
    (hstr : pyStrip s = s) : processRawLine s = s := by
  unfold processRawLine
  rw [contains_eq_false_of_not_mem hrs]
  simp only [Bool.false_eq_true, if_false]
  exact hstr

/-- C7 (amended): normalisation is the identity on fully normal input —
chunks free of ANSI escapes and carriage returns whose complete lines are
non-empty and already stripped come back unchanged, line for line (the
trailing unterminated fragment is retained as pending); likewise the file
poller returns an already-stripped, escape-free line unchanged after
removing its terminating newline. -/
theorem claim_C7_amended_identity :
    (∀ (segs : List (List Char)) (trailing : List Char),
      (∀ s ∈ segs, s ≠ [] ∧ pyStrip s = s ∧ '\n' ∉ s ∧ '\r' ∉ s ∧ '\x1b' ∉ s) →
      '\n' ∉ trailing → '\r' ∉ trailing → '\x1b' ∉ trailing →
      dockerProcessChunk [] (joinNl segs ++ trailing) = (segs, trailing)) ∧
    (∀ s : List Char, s ≠ [] → pyStrip s = s → '\x1b' ∉ s →
      fileProcessLine (s ++ ['\n']) = some s) := by
  constructor
  · intro segs trailing hsegs hnt hrt het
    have hesc : '\x1b' ∉ joinNl segs ++ trailing := by
      intro hm
      rcases List.mem_append.mp hm with hm | hm
      · unfold joinNl at hm
        rw [List.mem_flatten] at hm
        obtain ⟨part, hpart, hmp⟩ := hm
        rw [List.mem_map] at hpart
        obtain ⟨s, hsm, rfl⟩ := hpart
        rcases List.mem_append.mp hmp with hmp | hmp
        · exact (hsegs s hsm).2.2.2.2 hmp
        · simp at hmp
      · exact het hm
    have hclean := drainLinesGo_clean segs trailing
      ((joinNl segs ++ trailing).length + 1)
      (fun s hs => (hsegs s hs).2.2.1) hnt (by omega)
    simp only [dockerProcessChunk, drainLines, List.nil_append,
      stripAnsi_no_esc hesc, hclean, Option.getD_some]
    have hmap : segs.map processRawLine = segs :=
      map_id_of_mem segs (fun s hs =>
        processRawLine_clean (hsegs s hs).2.2.2.1 (hsegs s hs).2.1)
    rw [hmap]
    have hfilter : segs.filter (fun l => !l.isEmpty) = segs := by
      rw [List.filter_eq_self]
      intro s hs
      have := (hsegs s hs).1
      simp [List.isEmpty_iff]
      exact this
    rw [hfilter, contains_eq_false_of_not_mem hrt]
    simp
  · intro s hne hstr hesc
    have hesc2 : '\x1b' ∉ s ++ ['\n'] := by
      intro hm
      rcases List.mem_append.mp hm with hm | hm
      · exact hesc hm
      · simp at hm
    have hps : pyStrip (s ++ ['\n']) = s := by
      rw [pyStrip_append_space (by decide) s, hstr]
    have hie : s.isEmpty = false := by
      cases s with
      | nil => exact absurd rfl hne
      | cons a as => rfl
    simp [fileProcessLine, stripAnsi_no_esc hesc2, hps, hie]

/-- Witness for C7 (amended): a two-line already-normal chunk comes back
unchanged, and the file poller returns the line `"hi"` unchanged. -/
theorem claim_C7_amended_identity_witness :
    dockerProcessChunk [] (joinNl [['A'], ['B']] ++ []) = ([['A'], ['B']], []) ∧
    fileProcessLine (['h', 'i'] ++ ['\n']) = some ['h', 'i'] :=
  ⟨claim_C7_amended_identity.1 [['A'], ['B']] [] (by decide) (by decide)
      (by decide) (by decide),
   claim_C7_amended_identity.2 ['h', 'i'] (by decide) (by decide) (by decide)⟩

/-- C9: the claimed size-shrink detection does not exist in `_file_run`.
Under POSIX regular-file semantics, `f.seek(last_pos)` beyond end-of-file
succeeds silently, so after a file shrinks (rotation/truncation from
offset 10 down to the 3-byte `"hi\n"`) the cycle reads nothing and leaves
the stored offset at 10 instead of resetting it to 0 — the fresh content
is never emitted (a fresh read from offset 0 would emit `"hi"`).  Only an
actually-raised seek error (`OSError`) makes the code read from the start
of the file. -/
theorem claim_C9_rotation_detection_bug :
    fileTailCycle ("hi\n".toList) 10 true = ([], 10) ∧
    fileTailCycle ("hi\n".toList) 0 true = ([['h', 'i']], 3) ∧
    ("hi\n".toList).length < 10 ∧
    (∀ content lastPos, fileTailCycle content lastPos false =
      ((readLines content).filterMap fileProcessLine, content.length)) :=
  ⟨by decide, by decide, by decide, fun content lastPos => rfl⟩

theorem bfi_eq_of_not_infix {key : List Char} :
    ∀ l, ¬ key <:+: l → beforeFirstInfix key l = l := by
  intro l
  induction l with
  | nil => intro _; rfl
  | cons c rest ih =>
    intro h
    unfold beforeFirstInfix
    have hp : ¬ key.isPrefixOf (c :: rest) = true := by
      intro hp
      exact h (List.isPrefixOf_iff_prefix.mp hp).isInfix
    rw [if_neg hp, ih (fun hinf => h (List.infix_cons hinf))]

theorem bfi_decomp {key : List Char} (hk : key ≠ []) :
    ∀ l, key <:+: l → ∃ suf, l = beforeFirstInfix key l ++ key ++ suf ∧
      ¬ key <:+: beforeFirstInfix key l := by
  intro l
  induction l with
  | nil =>
    intro h
    exact absurd (by simpa using h) hk
  | cons c rest ih =>
    intro h
    unfold beforeFirstInfix
    by_cases hp : key.isPrefixOf (c :: rest) = true
    · rw [if_pos hp]
      obtain ⟨t, ht⟩ := List.isPrefixOf_iff_prefix.mp hp
      refine ⟨t, by simp [← ht], ?_⟩
      intro hinf
      exact hk (by simpa using hinf)
    · rw [if_neg hp]
      have hinf : key <:+: rest := by
        rcases List.infix_cons_iff.mp h with hpre | hinf
        · exact absurd (List.isPrefixOf_iff_prefix.mpr hpre) hp
        · exact hinf
      obtain ⟨suf, hsuf, hnot⟩ := ih hinf
      refine ⟨suf, ?_, ?_⟩
      · simp only [List.cons_append, List.append_assoc] at hsuf ⊢
        rw [← hsuf]
      · intro hbad
        rcases List.infix_cons_iff.mp hbad with hpre | hinf2
        · have hext : (c :: beforeFirstInfix key rest) <+: (c :: rest) := by
            refine ⟨key ++ suf, ?_⟩
            simp only [List.cons_append, List.append_assoc] at hsuf ⊢
            rw [← hsuf]
          exact hp (List.isPrefixOf_iff_prefix.mpr (hpre.trans hext))
        · exact hnot hinf2

/-- C8 as stated is falsified on case-mismatched input: detection is
case-insensitive but name extraction splits on the lowercase literal
`"has joined"`, so for `"Steve HAS JOINED"` the split finds no occurrence,
the whole line is tokenised, and the extracted name is `"JOINED"` — not
the claimed last token preceding the matched phrase (`"Steve"`). -/
theorem claim_C8_counterexample :
    checkPlayerEvent ("Steve HAS JOINED".toList) =
      some (.join ("JOINED".toList)) ∧
    ("JOINED".toList : List Char) ≠ "Steve".toList := by decide

/-- C8 (amended): detection is exactly as claimed — join on a
case-insensitive `"has joined"` hit, else leave on `"has left"` or
`"has disconnected"` (with `"has left"` preferred for extraction), else no
event, and a line is never both.  The attached name is the last
whitespace token of the stripped segment preceding the first
case-SENSITIVE (lowercase) occurrence of the phrase in the original-cased
line — when the phrase occurs only in different casing, the whole line is
tokenised instead — with the placeholder `"Someone"` when no token
results.  The claim's concrete examples hold. -/
theorem claim_C8_amended_event_detection :
    (∀ line : List Char,
      (joinKey <:+: toLowerL line →
        checkPlayerEvent line = some (.join (extractPlayerName line joinKey))) ∧
      (¬ joinKey <:+: toLowerL line → leftKey <:+: toLowerL line →
        checkPlayerEvent line = some (.leave (extractPlayerName line leftKey))) ∧
      (¬ joinKey <:+: toLowerL line → ¬ leftKey <:+: toLowerL line →
        discKey <:+: toLowerL line →
        checkPlayerEvent line = some (.leave (extractPlayerName line discKey))) ∧
      (¬ joinKey <:+: toLowerL line → ¬ leftKey <:+: toLowerL line →
        ¬ discKey <:+: toLowerL line → checkPlayerEvent line = none)) ∧
    (∀ key line : List Char, key ≠ [] →
      (key <:+: line → ∃ suf, line = beforeFirstInfix key line ++ key ++ suf ∧
        ¬ key <:+: beforeFirstInfix key line) ∧
      (¬ key <:+: line → beforeFirstInfix key line = line)) ∧
    (∀ line key : List Char, extractPlayerName line key =
      (pyWords (pyStrip (beforeFirstInfix key line))).getLastD someoneName) ∧
    checkPlayerEvent ("Steve has joined".toList) = some (.join ("Steve".toList)) ∧
    checkPlayerEvent ("Steve has left".toList) = some (.leave ("Steve".toList)) ∧
    checkPlayerEvent ("[Server] World saved".toList) = none := by
  refine ⟨?_, ?_, fun line key => rfl, by decide, by decide, by decide⟩
  · intro line
    refine ⟨?_, ?_, ?_, ?_⟩
    · intro hj
      simp only [checkPlayerEvent]
      rw [if_pos hj]
    · intro hj hl
      simp only [checkPlayerEvent]
      rw [if_neg hj, if_pos (Or.inl hl), if_pos hl]
    · intro hj hl hd
      simp only [checkPlayerEvent]
      rw [if_neg hj, if_pos (Or.inr hd), if_neg hl]
    · intro hj hl hd
      simp only [checkPlayerEvent]
      rw [if_neg hj, if_neg (not_or.mpr ⟨hl, hd⟩)]
  · intro key line hk
    exact ⟨fun h => bfi_decomp hk line h, fun h => bfi_eq_of_not_infix line h⟩

/-- Witness for C8 (amended): the detection law applied at
`"Steve has joined"`, and the first-occurrence decomposition applied to
the phrase `"has joined"` inside it. -/
theorem claim_C8_amended_event_detection_witness :
    checkPlayerEvent ("Steve has joined".toList) =
      some (.join (extractPlayerName ("Steve has joined".toList) joinKey)) ∧
    (∃ suf, ("Steve has joined".toList : List Char) =
      beforeFirstInfix joinKey ("Steve has joined".toList) ++ joinKey ++ suf ∧
      ¬ joinKey <:+: beforeFirstInfix joinKey ("Steve has joined".toList)) :=
  ⟨(claim_C8_amended_event_detection.1 ("Steve has joined".toList)).1 (by decide),
   ((claim_C8_amended_event_detection.2.1 joinKey ("Steve has joined".toList)
      (by decide)).1 (by decide))⟩

end TerrariaAdmin
